import Mathlib

/-!
Shallow embedding of the bitcask_rs storage engine (src/src) and proofs of
the specification claims.  Bytes are modelled as `Nat` (values < 256 where it
matters), files as `List Nat`, machine integers as `Nat`.

Rust source files embedded here:
  * `src/data/log_record.rs` — record types, varint-framed encoding, CRC32.
  * `src/data/data_file.rs`  — `read_log_record` decode protocol.
  * `src/index/btree.rs`     — the BTreeMap-backed keydir and its iterator.
  * `src/db.rs`              — engine put/get/delete, segment rotation,
                               recovery replay (`load_index_from_data_files`).
  * `src/batch.rs`           — seq-no stamping / parsing helpers.
  * `src/iterator.rs`        — engine-level iterator `next`.
-/

namespace Bitcask

/-- Outcome of a fallible Rust computation: `ok`, a returned error (`Errors`
enum value), or a Rust panic (`unwrap` / `expect` / `panic!`). -/
inductive RRes (ε : Type) (α : Type) where
  | ok : α → RRes ε α
  | err : ε → RRes ε α
  | panic : RRes ε α
deriving DecidableEq, Repr

/-- The `Errors` enum of `src/errors.rs` (only the variants the embedded code
can produce). -/
inductive Errors where
  | FailedToReadFromDataFile
  | FailedToWriteToDataFile
  | KeyIsEmpty
  | KeyNotFound
  | IndexUpdateFailed
  | DataFileNotFound
  | ReadDataFileEOF
  | InvalidLogRecordCrc
deriving DecidableEq, Repr

/-- `LogRecordType` of `src/data/log_record.rs`.  The source file in `src/`
declares `NORMAL = 1` and `DElETED = 2`; the `TxnFinish` variant is referenced
by `src/db.rs` and `src/batch.rs` but its declaration is missing from the
given `log_record.rs`.  Modelled from the spec: record type is one of
{Normal, Tombstone, TxnFinish} (§3); `TxnFinish` takes the next discriminant 3. -/
inductive LogRecordType where
  | NORMAL
  | DElETED
  | TxnFinish
deriving DecidableEq, Repr

/-- `rec_type as u8` (discriminants from the enum declaration). -/
def LogRecordType.toU8 : LogRecordType → Nat
  | .NORMAL => 1
  | .DElETED => 2
  | .TxnFinish => 3

/-- `LogRecordType::from_u8`; the wildcard arm panics, modelled as `none`.
The arm for 3 is modelled from the spec (see `LogRecordType`). -/
def LogRecordType.from_u8 (v : Nat) : Option LogRecordType :=
  if v = 1 then some .NORMAL
  else if v = 2 then some .DElETED
  else if v = 3 then some .TxnFinish
  else none

/-- `LogRecord` of `src/data/log_record.rs`: key and value are byte vectors. -/
structure LogRecord where
  key : List Nat
  value : List Nat
  rec_type : LogRecordType
deriving DecidableEq, Repr

/-- `LogRecordPos`: (file_id, offset). -/
structure LogRecordPos where
  file_id : Nat
  offset : Nat
deriving DecidableEq, Repr

/-! ### Varint length delimiters (prost `encode_length_delimiter` /
`decode_length_delimiter`): unsigned LEB128, at most 10 bytes (u64). -/

/-- LEB128 digit expansion with structural fuel; prost's
`encode_length_delimiter` encodes a `usize` (a u64), which needs at most 10
digits, so `varintEncode` runs this with fuel 9 — on the whole u64 domain the
fuel is never exhausted and this is exactly unsigned LEB128. -/
def varintEncodeAux : Nat → Nat → List Nat
  | 0, n => [n % 128]
  | fuel + 1, n =>
    if n < 128 then [n]
    else (n % 128 + 128) :: varintEncodeAux fuel (n / 128)

/-- LEB128 encoding of a `usize`, as written by prost
`encode_length_delimiter`. -/
def varintEncode (n : Nat) : List Nat := varintEncodeAux 9 n

/-- prost `length_delimiter_len`. -/
def length_delimiter_len (n : Nat) : Nat := (varintEncode n).length

/-- LEB128 decoding as done by prost `decode_varint`: at most 10 bytes, the
tenth byte may only be 0 or 1 (u64 range); returns the decoded value and the
remaining bytes, or `none` on an invalid/truncated varint (where prost errors
and the callers in the source `unwrap`, i.e. panic).  `i` is the index of the
byte being examined. -/
def varintDecodeAux : Nat → List Nat → Option (Nat × List Nat)
  | _, [] => none
  | i, b :: rest =>
    if b % 256 < 128 then
      if i = 9 ∧ b % 256 > 1 then none else some (b % 256, rest)
    else
      if i ≥ 9 then none
      else
        match varintDecodeAux (i + 1) rest with
        | some (v, r) => some ((b % 256 - 128) + 128 * v, r)
        | none => none

/-- prost `decode_length_delimiter` on a byte buffer: decoded value plus the
remaining buffer. -/
def varintDecode (bs : List Nat) : Option (Nat × List Nat) :=
  varintDecodeAux 0 bs

/-! ### CRC32 (IEEE, as computed by `crc32fast`). -/

/-- One bit step of the reflected CRC-32 (polynomial 0xEDB88320). -/
def crc32Step (c : Nat) : Nat :=
  if c % 2 = 1 then (c / 2) ^^^ 0xEDB88320 else c / 2

/-- Fold one input byte into the CRC state. -/
def crc32Byte (c b : Nat) : Nat :=
  crc32Step (crc32Step (crc32Step (crc32Step
    (crc32Step (crc32Step (crc32Step (crc32Step (c ^^^ b % 256))))))))

/-- `crc32fast::Hasher`: init `0xFFFFFFFF`, fold all bytes, final xor. -/
def crc32 (bs : List Nat) : Nat :=
  (bs.foldl crc32Byte 0xFFFFFFFF) ^^^ 0xFFFFFFFF

/-! ### Record encoding (`LogRecord::encode_and_get_crc`). -/

/-- The CRC-covered body of an encoded record:
`[type][varint key_len][varint value_len][key][value]`. -/
def encodeBody (r : LogRecord) : List Nat :=
  r.rec_type.toU8 :: (varintEncode r.key.length ++ varintEncode r.value.length
    ++ r.key ++ r.value)

/-- Big-endian 4-byte encoding (bytes `BufMut::put_u32`). -/
def u32be (n : Nat) : List Nat :=
  [n / 2 ^ 24 % 256, n / 2 ^ 16 % 256, n / 2 ^ 8 % 256, n % 256]

/-- Big-endian 4-byte decoding (bytes `Buf::get_u32`). -/
def u32beGet (bs : List Nat) : Nat :=
  match bs with
  | b0 :: b1 :: b2 :: b3 :: _ =>
    ((b0 % 256) * 2 ^ 24) + ((b1 % 256) * 2 ^ 16) + ((b2 % 256) * 2 ^ 8)
      + b3 % 256
  | _ => 0

/-- `LogRecord::get_crc`. -/
def LogRecord.get_crc (r : LogRecord) : Nat := crc32 (encodeBody r)

/-- `LogRecord::encode`: body followed by the CRC32 (big-endian, as
`put_u32` writes it). -/
def LogRecord.encode (r : LogRecord) : List Nat :=
  encodeBody r ++ u32be r.get_crc

/-- `max_long_record()`: 1 + 2 × `length_delimiter_len(u32::MAX)`. -/
def max_long_record : Nat := 1 + length_delimiter_len (2 ^ 32 - 1) * 2

/-! ### Positional file reads (`IOManager::read` into a zeroed buffer).

`src/fio/file_io.rs` is not present under `src/`; modelled from the spec:
§4.1 "Read up to max-header bytes at offset" and §6 (the file primitive
offers random-access positional reads).  Reading at `offset` into a zeroed
buffer of length `len` yields the available file bytes, the rest of the
buffer staying zero — which is what makes the all-zero EOF sentinel of the
read protocol work. -/
def readAt (file : List Nat) (offset len : Nat) : List Nat :=
  ((file.drop offset).take len)
    ++ List.replicate (len - (file.drop offset).length) 0

/-! #### Varint lemmas -/

theorem varintEncodeAux_ne_nil (fuel n : Nat) : varintEncodeAux fuel n ≠ [] := by
  cases fuel with
  | zero => simp [varintEncodeAux]
  | succ fuel =>
    rw [varintEncodeAux]
    split <;> simp

theorem varintEncode_ne_nil (n : Nat) : varintEncode n ≠ [] :=
  varintEncodeAux_ne_nil 9 n

theorem varintEncodeAux_length_le (fuel : Nat) :
    ∀ n k, 1 ≤ k → n < 128 ^ k → (varintEncodeAux fuel n).length ≤ k := by
  induction fuel with
  | zero => intro n k hk _; simp [varintEncodeAux]; omega
  | succ fuel ih =>
    intro n k hk hn
    rw [varintEncodeAux]
    split
    · simp; omega
    · rename_i hge
      simp only [List.length_cons]
      have hk2 : 2 ≤ k := by
        by_contra h
        have : k = 1 := by omega
        subst this
        simp at hn
        omega
      have hdiv : n / 128 < 128 ^ (k - 1) := by
        rw [Nat.div_lt_iff_lt_mul (by norm_num)]
        calc n < 128 ^ k := hn
          _ = 128 ^ (k - 1) * 128 := by
            rw [← pow_succ]
            congr 1
            omega
      have := ih (n / 128) (k - 1) (by omega) hdiv
      omega

theorem varintEncode_length_le_five (n : Nat) (h : n < 2 ^ 32) :
    (varintEncode n).length ≤ 5 :=
  varintEncodeAux_length_le 9 n 5 (by norm_num) (by norm_num; omega)

theorem varintDecodeAux_encodeAux (rest : List Nat) :
    ∀ fuel i n, i ≤ 9 → 9 ≤ fuel + i → n < 2 ^ (64 - 7 * i) →
    varintDecodeAux i (varintEncodeAux fuel n ++ rest) = some (n, rest) := by
  intro fuel
  induction fuel with
  | zero =>
    intro i n hi hfi hn
    have hi9 : i = 9 := by omega
    subst hi9
    simp only [show 64 - 7 * 9 = 1 by norm_num, pow_one] at hn
    have hmod : n % 128 = n := Nat.mod_eq_of_lt (by omega)
    simp only [varintEncodeAux, hmod, List.cons_append, List.nil_append]
    rw [varintDecodeAux]
    have hmod2 : n % 256 = n := Nat.mod_eq_of_lt (by omega)
    simp only [hmod2]
    rw [if_pos (by omega), if_neg (by omega)]
  | succ fuel ih =>
    intro i n hi hfi hn
    rw [varintEncodeAux]
    by_cases h128 : n < 128
    · simp only [if_pos h128, List.cons_append, List.nil_append]
      have hmod : n % 256 = n := Nat.mod_eq_of_lt (by omega)
      have hn9 : ¬(i = 9 ∧ n > 1) := by
        rintro ⟨rfl, hgt⟩
        simp only [show 64 - 7 * 9 = 1 by norm_num, pow_one] at hn
        omega
      rw [varintDecodeAux]
      simp only [hmod]
      rw [if_pos h128, if_neg hn9]
    · simp only [if_neg h128, List.cons_append]
      have hb : (n % 128 + 128) % 256 = n % 128 + 128 := by omega
      have hi9 : i ≠ 9 := by
        rintro rfl
        simp only [show 64 - 7 * 9 = 1 by norm_num, pow_one] at hn
        omega
      have hrec : varintDecodeAux (i + 1) (varintEncodeAux fuel (n / 128) ++ rest) =
          some (n / 128, rest) := by
        apply ih (i + 1) (n / 128) (by omega) (by omega)
        have hexp : 64 - 7 * i = (64 - 7 * (i + 1)) + 7 := by omega
        rw [hexp, pow_add] at hn
        rw [Nat.div_lt_iff_lt_mul (by norm_num)]
        calc n < 2 ^ (64 - 7 * (i + 1)) * 2 ^ 7 := hn
          _ = 2 ^ (64 - 7 * (i + 1)) * 128 := by norm_num
      rw [varintDecodeAux]
      simp only [hb, if_neg (show ¬(n % 128 + 128 < 128) by omega),
        if_neg (show ¬(i ≥ 9) by omega), hrec]
      have heq : n % 128 + 128 - 128 + 128 * (n / 128) = n := by omega
      simp [heq]
      omega

theorem varintDecode_encode (n : Nat) (rest : List Nat) (hn : n < 2 ^ 64) :
    varintDecode (varintEncode n ++ rest) = some (n, rest) :=
  varintDecodeAux_encodeAux rest 9 0 n (by omega) (by omega) (by simpa using hn)

/-- `DataFile::read_log_record` (`src/data/data_file.rs`): speculative
header read, EOF sentinel, key/value/CRC read, CRC verification.  Returns
the record and total consumed size.  Panics (`none`-style, via `RRes.panic`)
where the source `unwrap`s: invalid varint, unknown record type. -/
def read_log_record (file : List Nat) (offset : Nat) :
    RRes Errors (LogRecord × Nat) :=
  let header_buf := readAt file offset max_long_record
  match header_buf with
  | [] => .panic
  | rec_type_byte :: after_type =>
    match varintDecode after_type with
    | none => .panic
    | some (key_size, after_key_len) =>
      match varintDecode after_key_len with
      | none => .panic
      | some (value_size, _) =>
        if key_size = 0 ∧ value_size = 0 then .err .ReadDataFileEOF
        else
          let actual_header_size :=
            length_delimiter_len key_size + length_delimiter_len value_size + 1
          let kv_buf :=
            readAt file (offset + actual_header_size) (key_size + value_size + 4)
          match LogRecordType.from_u8 (rec_type_byte % 256) with
          | none => .panic
          | some t =>
            let log_record : LogRecord :=
              { key := kv_buf.take key_size
                value := (kv_buf.drop key_size).take value_size
                rec_type := t }
            if u32beGet (kv_buf.drop (key_size + value_size)) ≠
                log_record.get_crc then
              .err .InvalidLogRecordCrc
            else
              .ok (log_record, actual_header_size + key_size + value_size + 4)

/-! #### Codec round-trip -/

theorem crc32Step_lt (c : Nat) (h : c < 2 ^ 32) : crc32Step c < 2 ^ 32 := by
  unfold crc32Step
  split
  · exact Nat.xor_lt_two_pow (by omega) (by norm_num)
  · omega

theorem crc32Byte_lt (c b : Nat) (h : c < 2 ^ 32) : crc32Byte c b < 2 ^ 32 := by
  unfold crc32Byte
  have h0 : c ^^^ b % 256 < 2 ^ 32 := Nat.xor_lt_two_pow h (by omega)
  exact crc32Step_lt _ (crc32Step_lt _ (crc32Step_lt _ (crc32Step_lt _
    (crc32Step_lt _ (crc32Step_lt _ (crc32Step_lt _ (crc32Step_lt _ h0)))))))

theorem crc32_foldl_lt (bs : List Nat) :
    ∀ c, c < 2 ^ 32 → bs.foldl crc32Byte c < 2 ^ 32 := by
  induction bs with
  | nil => intro c h; simpa using h
  | cons b bs ih =>
    intro c h
    simpa using ih _ (crc32Byte_lt c b h)

theorem crc32_lt (bs : List Nat) : crc32 bs < 2 ^ 32 :=
  Nat.xor_lt_two_pow (crc32_foldl_lt bs _ (by norm_num)) (by norm_num)

theorem u32beGet_u32be (n : Nat) (h : n < 2 ^ 32) :
    u32beGet (u32be n) = n := by
  simp only [u32be, u32beGet]
  omega

theorem from_u8_toU8 (t : LogRecordType) :
    LogRecordType.from_u8 (t.toU8 % 256) = some t := by
  cases t <;> rfl

theorem LogRecord.encode_length (r : LogRecord) :
    r.encode.length = 1 + (varintEncode r.key.length).length
      + (varintEncode r.value.length).length + r.key.length
      + r.value.length + 4 := by
  simp [LogRecord.encode, encodeBody, u32be]
  omega

/-- `readAt` over a file split as `pre ++ tail` at offset `pre.length`. -/
theorem readAt_append (pre tail : List Nat) (len : Nat) :
    readAt (pre ++ tail) pre.length len =
      tail.take len ++ List.replicate (len - tail.length) 0 := by
  simp [readAt, List.drop_left]

/-- Decoding `read_log_record` at the offset where `r.encode` was written
returns `r` and consumes exactly `r.encode.length` bytes.  This is the codec
round-trip that `get` relies on, with arbitrary surrounding log bytes. -/
theorem read_log_record_encode (pre post : List Nat) (r : LogRecord)
    (hk : r.key ≠ []) (hklen : r.key.length < 2 ^ 32)
    (hvlen : r.value.length < 2 ^ 32) :
    read_log_record (pre ++ r.encode ++ post) pre.length =
      .ok (r, r.encode.length) := by
  set vk := varintEncode r.key.length with hvk
  set vv := varintEncode r.value.length with hvv
  have hvk5 : vk.length ≤ 5 := varintEncode_length_le_five _ hklen
  have hvv5 : vv.length ≤ 5 := varintEncode_length_le_five _ hvlen
  have hvk1 : 1 ≤ vk.length := by
    cases h : vk with
    | nil => exact absurd h (varintEncode_ne_nil _)
    | cons a l => simp
  have hvv1 : 1 ≤ vv.length := by
    cases h : vv with
    | nil => exact absurd h (varintEncode_ne_nil _)
    | cons a l => simp
  have hfile : pre ++ r.encode ++ post = pre ++ (r.encode ++ post) := by
    simp
  -- the encode, with the record tail made explicit
  have henc : r.encode ++ post =
      r.rec_type.toU8 :: (vk ++ (vv ++ (r.key ++ (r.value
        ++ (u32be r.get_crc ++ post))))) := by
    simp [LogRecord.encode, encodeBody, ← hvk, ← hvv]
  -- Step 1: the speculative header read
  have hheader : readAt (pre ++ r.encode ++ post) pre.length max_long_record =
      r.rec_type.toU8 ::
        ((vk ++ (vv ++ (r.key ++ (r.value ++ (u32be r.get_crc ++ post))))).take 10
          ++ List.replicate (10 -
            (vk ++ (vv ++ (r.key ++ (r.value ++ (u32be r.get_crc ++ post))))).length) 0) := by
    rw [hfile, readAt_append, henc]
    have hmlr : max_long_record = 11 := rfl
    simp [hmlr, Nat.succ_sub_succ]
  -- the tail after the type byte, decomposed for the two varint decodes
  have htail : (vk ++ (vv ++ (r.key ++ (r.value ++ (u32be r.get_crc ++ post))))).take 10
      ++ List.replicate (10 -
        (vk ++ (vv ++ (r.key ++ (r.value ++ (u32be r.get_crc ++ post))))).length) 0
      = vk ++ (vv ++
        (((r.key ++ (r.value ++ (u32be r.get_crc ++ post))).take (10 - vk.length - vv.length))
          ++ List.replicate (10 -
            (vk ++ (vv ++ (r.key ++ (r.value ++ (u32be r.get_crc ++ post))))).length) 0)) := by
    rw [List.take_append_eq_append_take, List.take_append_eq_append_take,
      List.take_of_length_le (by omega), List.take_of_length_le (by omega)]
    simp [Nat.sub_sub]
  -- Step 2: the two varint decodes
  have hdec1 : varintDecode (vk ++ (vv ++
      (((r.key ++ (r.value ++ (u32be r.get_crc ++ post))).take (10 - vk.length - vv.length))
        ++ List.replicate (10 -
          (vk ++ (vv ++ (r.key ++ (r.value ++ (u32be r.get_crc ++ post))))).length) 0))) =
      some (r.key.length, vv ++
        (((r.key ++ (r.value ++ (u32be r.get_crc ++ post))).take (10 - vk.length - vv.length))
          ++ List.replicate (10 -
            (vk ++ (vv ++ (r.key ++ (r.value ++ (u32be r.get_crc ++ post))))).length) 0)) := by
    rw [hvk]
    exact varintDecode_encode _ _ (by omega)
  have hdec2 : varintDecode (vv ++
      (((r.key ++ (r.value ++ (u32be r.get_crc ++ post))).take (10 - vk.length - vv.length))
        ++ List.replicate (10 -
          (vk ++ (vv ++ (r.key ++ (r.value ++ (u32be r.get_crc ++ post))))).length) 0)) =
      some (r.value.length,
        ((r.key ++ (r.value ++ (u32be r.get_crc ++ post))).take (10 - vk.length - vv.length))
          ++ List.replicate (10 -
            (vk ++ (vv ++ (r.key ++ (r.value ++ (u32be r.get_crc ++ post))))).length) 0) := by
    rw [hvv]
    exact varintDecode_encode _ _ (by omega)
  -- Step 3: the key/value/crc read
  have hkv : readAt (pre ++ r.encode ++ post)
      (pre.length + (length_delimiter_len r.key.length
        + length_delimiter_len r.value.length + 1))
      (r.key.length + r.value.length + 4)
      = r.key ++ (r.value ++ u32be r.get_crc) := by
    have hsplit : pre ++ r.encode ++ post =
        (pre ++ (r.rec_type.toU8 :: (vk ++ vv)))
          ++ (r.key ++ (r.value ++ (u32be r.get_crc ++ post))) := by
      simp [LogRecord.encode, encodeBody, ← hvk, ← hvv]
    have hlen : (pre ++ (r.rec_type.toU8 :: (vk ++ vv))).length =
        pre.length + (length_delimiter_len r.key.length
          + length_delimiter_len r.value.length + 1) := by
      simp only [List.length_append, List.length_cons, length_delimiter_len,
        ← hvk, ← hvv]
    rw [hsplit, ← hlen, readAt_append]
    have hu4 : (u32be r.get_crc).length = 4 := by
      simp only [u32be, List.length_cons, List.length_nil]
    have hl : (r.key ++ (r.value ++ u32be r.get_crc)).length =
        r.key.length + r.value.length + 4 := by
      simp only [List.length_append, hu4]
      omega
    have hassoc : r.key ++ (r.value ++ (u32be r.get_crc ++ post)) =
        (r.key ++ (r.value ++ u32be r.get_crc)) ++ post := by simp
    rw [hassoc, List.take_append_eq_append_take,
      List.take_of_length_le (by omega)]
    have hzero : (r.key.length + r.value.length + 4 -
        ((r.key ++ (r.value ++ u32be r.get_crc)) ++ post).length) = 0 := by
      simp only [List.length_append, hu4]
      omega
    have hzero2 : (r.key.length + r.value.length + 4 -
        (r.key ++ (r.value ++ u32be r.get_crc)).length) = 0 := by
      simp only [List.length_append, hu4]
      omega
    rw [hzero, hzero2]
    simp
  -- assemble
  have hkey0 : ¬(r.key.length = 0 ∧ r.value.length = 0) := by
    intro ⟨h0, _⟩
    exact hk (List.length_eq_zero.mp h0)
  have htake_key : (r.key ++ (r.value ++ u32be r.get_crc)).take r.key.length = r.key :=
    List.take_left' rfl
  have hdrop_key : (r.key ++ (r.value ++ u32be r.get_crc)).drop r.key.length =
      r.value ++ u32be r.get_crc := List.drop_left' rfl
  have htake_val : (r.value ++ u32be r.get_crc).take r.value.length = r.value :=
    List.take_left' rfl
  have hdrop_kv : (r.key ++ (r.value ++ u32be r.get_crc)).drop
      (r.key.length + r.value.length) = u32be r.get_crc := by
    rw [← List.drop_drop, hdrop_key, List.drop_left' rfl]
  have hrec : ({ key := r.key, value := r.value, rec_type := r.rec_type } :
      LogRecord) = r := rfl
  have hu32 : u32beGet (u32be r.get_crc) = r.get_crc :=
    u32beGet_u32be _ (crc32_lt _)
  have hsz : length_delimiter_len r.key.length + length_delimiter_len r.value.length
      + 1 + r.key.length + r.value.length + 4 = r.encode.length := by
    rw [r.encode_length]
    simp only [length_delimiter_len]
    omega
  rw [read_log_record]
  simp only [hheader, htail, hdec1, hdec2, eq_false hkey0, if_false,
    from_u8_toU8, hkv, htake_key, hdrop_key, htake_val, hdrop_kv, hrec, hu32,
    ne_eq, not_true_eq_false, if_false, ← hsz]

/-- C4: Codec round-trip: for every log record whose key is non-empty (value
may be empty) and whose key/value lengths are in the u32 range targeted by the
codec's max-header bound, writing `LogRecord::encode(r)` at an offset (after
arbitrary bytes `pre`, before arbitrary bytes `post`) and then decoding via
`read_log_record` at that offset returns a record equal to `r` together with a
consumed size equal to the encoded length, the CRC check passing. -/
theorem C4_encode_decode_roundtrip (pre post : List Nat) (r : LogRecord)
    (hk : r.key ≠ []) (hklen : r.key.length < 2 ^ 32)
    (hvlen : r.value.length < 2 ^ 32) :
    read_log_record (pre ++ r.encode ++ post) pre.length =
      .ok (r, r.encode.length) :=
  read_log_record_encode pre post r hk hklen hvlen

/-- Witness for C4 at the record of the repository's own codec test
(`key = "xia"`, `value = "sang"`, type Normal), with surrounding log bytes. -/
theorem C4_encode_decode_roundtrip_witness :
    ([120, 105, 97] : List Nat) ≠ [] ∧
    read_log_record
        ([7] ++ (⟨[120, 105, 97], [115, 97, 110, 103], .NORMAL⟩ : LogRecord).encode ++ [9]) 1 =
      .ok ((⟨[120, 105, 97], [115, 97, 110, 103], .NORMAL⟩ : LogRecord),
        (⟨[120, 105, 97], [115, 97, 110, 103], .NORMAL⟩ : LogRecord).encode.length) :=
  ⟨by decide,
    C4_encode_decode_roundtrip [7] [9] ⟨[120, 105, 97], [115, 97, 110, 103], .NORMAL⟩
      (by decide) (by decide) (by decide)⟩

/-! ### Keydir index: `src/index/btree.rs`.

The Rust `BTreeMap<Vec<u8>, LogRecordPos>` is modelled as an association list
kept sorted by the byte-lexicographic order of `Ord for Vec<u8>`. -/

/-- Byte-lexicographic strict order on keys (the `Ord` of Rust `Vec<u8>`). -/
def lexLtb : List Nat → List Nat → Bool
  | [], [] => false
  | [], _ :: _ => true
  | _ :: _, [] => false
  | a :: ka, b :: kb => a < b || (a = b && lexLtb ka kb)

/-- `BTreeMap::get` (by key equality on the association list). -/
def btreeGet : List (List Nat × LogRecordPos) → List Nat → Option LogRecordPos
  | [], _ => none
  | (k, p) :: rest, key => if k = key then some p else btreeGet rest key

/-- `BTreeMap::insert`: insert or overwrite, keeping the list sorted. -/
def btreeInsert : List (List Nat × LogRecordPos) → List Nat → LogRecordPos →
    List (List Nat × LogRecordPos)
  | [], key, pos => [(key, pos)]
  | (k, p) :: rest, key, pos =>
    if lexLtb key k then (key, pos) :: (k, p) :: rest
    else if k = key then (key, pos) :: rest
    else (k, p) :: btreeInsert rest key pos

/-- `BTreeMap::remove`: the resulting map and whether the key was present. -/
def btreeRemove : List (List Nat × LogRecordPos) → List Nat →
    List (List Nat × LogRecordPos) × Bool
  | [], _ => ([], false)
  | (k, p) :: rest, key =>
    if k = key then (rest, true)
    else
      let r := btreeRemove rest key
      ((k, p) :: r.1, r.2)

/-- `Btree::put` (`Indexer` impl): inserts and returns the literal `true`. -/
def btreePut (t : List (List Nat × LogRecordPos)) (key : List Nat)
    (pos : LogRecordPos) : List (List Nat × LogRecordPos) × Bool :=
  (btreeInsert t key pos, true)

/-- `Btree::delete`: removes and returns `remove_res.is_some()`. -/
def btreeDelete (t : List (List Nat × LogRecordPos)) (key : List Nat) :
    List (List Nat × LogRecordPos) × Bool :=
  btreeRemove t key

/-! ### Seq-no stamping: `src/batch.rs`. -/

/-- `NON_TRANSACTION_SEQ_NO`. -/
def NON_TRANSACTION_SEQ_NO : Nat := 0

/-- `TXN_FIN_KEY` = b"txn_finish". -/
def TXN_FIN_KEY : List Nat := [116, 120, 110, 95, 102, 105, 110, 105, 115, 104]

/-- `log_record_key_with_seq`: `varint(seq_no) || key`. -/
def log_record_key_with_seq (key : List Nat) (seq_no : Nat) : List Nat :=
  varintEncode seq_no ++ key

/-- `parse_log_record_key`: split the varint stamp off an on-disk key,
returning `(real_key, seq_no)`; the source `unwrap`s the varint decode, so an
invalid stamp is a panic, modelled as `none`. -/
def parse_log_record_key (key : List Nat) : Option (List Nat × Nat) :=
  match varintDecode key with
  | some (seq_no, rest) => some (rest, seq_no)
  | none => none

/-! ### Engine state and operations: `src/db.rs`.

The on-disk directory is modelled as `disk : Nat → List Nat` mapping each
file-id to that segment file's bytes (`DataFile::new` on an existing path
reopens the same bytes).  `olderFids` is the key set of the `older_files`
map; `writeOff` is the active `DataFile`'s in-memory write offset. -/

structure EngineOptions where
  data_file_size : Nat
  sync_writes : Bool
deriving Repr

structure EngineState where
  options : EngineOptions
  activeFid : Nat
  writeOff : Nat
  olderFids : List Nat
  disk : Nat → List Nat
  index : List (List Nat × LogRecordPos)
  seq_no : Nat

/-- `Engine::append_log_record`: encode, rotate the active segment if the
projected size exceeds `data_file_size` (fsync being I/O-only), append at the
current write offset, return the pre-append location. -/
def append_log_record (s : EngineState) (record : LogRecord) :
    EngineState × LogRecordPos :=
  let enc := record.encode
  let record_len := enc.length
  let s1 :=
    if s.writeOff + record_len > s.options.data_file_size then
      { s with
          olderFids := s.activeFid :: s.olderFids
          activeFid := s.activeFid + 1
          writeOff := 0 }
    else s
  let write_off := s1.writeOff
  ({ s1 with
      disk := fun fid => if fid = s1.activeFid then s1.disk fid ++ enc else s1.disk fid
      writeOff := write_off + record_len },
    { file_id := s1.activeFid, offset := write_off })

/-- `Engine::put`. -/
def Engine.put (s : EngineState) (key value : List Nat) :
    Except Errors EngineState :=
  if key = [] then .error .KeyIsEmpty
  else
    let record : LogRecord :=
      { key := log_record_key_with_seq key NON_TRANSACTION_SEQ_NO
        value := value
        rec_type := .NORMAL }
    let sp := append_log_record s record
    let ip := btreePut sp.1.index key sp.2
    match ip.2 with
    | false => .error .IndexUpdateFailed
    | true => .ok { sp.1 with index := ip.1 }

/-- `Engine::delete`: absent key is a success without writing; otherwise a
tombstone is appended and the key removed from the keydir. -/
def Engine.delete (s : EngineState) (key : List Nat) :
    Except Errors EngineState :=
  if key = [] then .error .KeyIsEmpty
  else
    match btreeGet s.index key with
    | none => .ok s
    | some _ =>
      let record : LogRecord :=
        { key := log_record_key_with_seq key NON_TRANSACTION_SEQ_NO
          value := []
          rec_type := .DElETED }
      let sp := append_log_record s record
      let ip := btreeDelete sp.1.index key
      if ip.2 then .ok { sp.1 with index := ip.1 }
      else .error .IndexUpdateFailed

/-- `Engine::get_value_by_position`: read from the active segment or an older
segment by file-id; unknown file-id is `DataFileNotFound`; a tombstone at the
location surfaces `KeyNotFound`. -/
def Engine.get_value_by_position (s : EngineState) (pos : LogRecordPos) :
    RRes Errors (List Nat) :=
  let readRes :=
    if s.activeFid = pos.file_id then
      read_log_record (s.disk pos.file_id) pos.offset
    else if pos.file_id ∈ s.olderFids then
      read_log_record (s.disk pos.file_id) pos.offset
    else .err .DataFileNotFound
  match readRes with
  | .err e => .err e
  | .panic => .panic
  | .ok rs =>
    if rs.1.rec_type = .DElETED then .err .KeyNotFound
    else .ok rs.1.value

/-- `Engine::get`. -/
def Engine.get (s : EngineState) (key : List Nat) : RRes Errors (List Nat) :=
  if key = [] then .err .KeyIsEmpty
  else
    match btreeGet s.index key with
    | none => .err .KeyNotFound
    | some pos => Engine.get_value_by_position s pos

/-- A fresh engine state as produced by `Engine::open` on an empty directory:
one empty active segment with file-id 0, empty keydir, seq counter 1. -/
def initialState (opts : EngineOptions) : EngineState :=
  { options := opts
    activeFid := 0
    writeOff := 0
    olderFids := []
    disk := fun _ => []
    index := []
    seq_no := 1 }

/-- State invariant maintained by the engine: the active segment's in-memory
write offset equals its on-disk length, and file-ids beyond the active one do
not exist yet. -/
def EngineInv (s : EngineState) : Prop :=
  s.writeOff = (s.disk s.activeFid).length ∧
  ∀ fid, fid > s.activeFid → s.disk fid = []

/-- C7: for every non-empty key not present in the keydir, `delete` returns
success and changes nothing — the returned state is the input state itself
(same log bytes, same write offset, same keydir). -/
theorem C7_delete_absent_is_noop (s : EngineState) (key : List Nat)
    (hk : key ≠ []) (habs : btreeGet s.index key = none) :
    Engine.delete s key = .ok s := by
  unfold Engine.delete
  rw [if_neg hk, habs]

/-- Witness for C7: deleting an absent key on a fresh engine. -/
theorem C7_delete_absent_is_noop_witness :
    ([1] : List Nat) ≠ [] ∧
    Engine.delete (initialState ⟨256, true⟩) [1] = .ok (initialState ⟨256, true⟩) :=
  ⟨by decide, C7_delete_absent_is_noop (initialState ⟨256, true⟩) [1]
    (by decide) (by decide)⟩

/-- C10: with the BTree backend, `Indexer::put` returns `true` for every key
and position, the `IndexUpdateFailed` branch of `Engine::put` is unreachable,
and `put` with a non-empty key always returns success (log appends cannot
fail in the model, matching the claim's "whenever the log append succeeds"). -/
theorem C10_put_index_update_unreachable :
    (∀ t key pos, (btreePut t key pos).2 = true) ∧
    (∀ s key value, Engine.put s key value ≠ .error .IndexUpdateFailed) ∧
    (∀ s key value, key ≠ [] → ∃ s', Engine.put s key value = .ok s') := by
  refine ⟨fun t key pos => rfl, ?_, ?_⟩
  · intro s key value h
    unfold Engine.put at h
    by_cases hk : key = []
    · rw [if_pos hk] at h
      exact absurd h (by simp)
    · rw [if_neg hk] at h
      simp [btreePut] at h
  · intro s key value hk
    unfold Engine.put
    rw [if_neg hk]
    exact ⟨_, rfl⟩

/-- Witness for C10 on a fresh engine. -/
theorem C10_put_index_update_unreachable_witness :
    ∃ s', Engine.put (initialState ⟨256, true⟩) [1] [2] = .ok s' :=
  C10_put_index_update_unreachable.2.2 (initialState ⟨256, true⟩) [1] [2]
    (by decide)

/-- C6: when the projected size `write_offset + encoded_len` strictly exceeds
`data_file_size`, `append_log_record` rotates: the old active file-id joins
the older set, the new active file-id is one greater, and the record lands at
offset 0 of the new segment (whose bytes are exactly the encoded record, given
the engine invariant), the returned location being `(old id + 1, 0)`.
Otherwise no rotation occurs and the returned location is
`(active id, pre-append write offset)`. -/
theorem C6_segment_rotation (s : EngineState) (r : LogRecord) :
    (s.writeOff + r.encode.length > s.options.data_file_size →
      (append_log_record s r).2 = ⟨s.activeFid + 1, 0⟩ ∧
      (append_log_record s r).1.activeFid = s.activeFid + 1 ∧
      s.activeFid ∈ (append_log_record s r).1.olderFids ∧
      (append_log_record s r).1.disk (s.activeFid + 1)
        = s.disk (s.activeFid + 1) ++ r.encode ∧
      (append_log_record s r).1.writeOff = r.encode.length ∧
      (EngineInv s →
        (append_log_record s r).1.disk (s.activeFid + 1) = r.encode)) ∧
    (s.writeOff + r.encode.length ≤ s.options.data_file_size →
      (append_log_record s r).2 = ⟨s.activeFid, s.writeOff⟩ ∧
      (append_log_record s r).1.activeFid = s.activeFid ∧
      (append_log_record s r).1.olderFids = s.olderFids ∧
      (append_log_record s r).1.disk s.activeFid
        = s.disk s.activeFid ++ r.encode ∧
      (append_log_record s r).1.writeOff = s.writeOff + r.encode.length) := by
  constructor
  · intro h
    simp only [append_log_record, if_pos h]
    refine ⟨by simp, by simp, by simp, by simp, by simp, ?_⟩
    intro hinv
    simp [hinv.2 (s.activeFid + 1) (by omega)]
  · intro h
    simp only [append_log_record, if_neg (show ¬(s.writeOff + r.encode.length >
      s.options.data_file_size) by omega)]
    exact ⟨by simp, by simp, by simp, by simp, by simp⟩

/-- Witness for C6: on a fresh engine with `data_file_size = 4`, appending an
8-byte record rotates to file-id 1 at offset 0. -/
theorem C6_segment_rotation_witness :
    (initialState ⟨4, true⟩).writeOff
        + (⟨[1], [], .NORMAL⟩ : LogRecord).encode.length
        > (initialState ⟨4, true⟩).options.data_file_size ∧
    (append_log_record (initialState ⟨4, true⟩) ⟨[1], [], .NORMAL⟩).2
      = ⟨1, 0⟩ ∧
    (append_log_record (initialState ⟨4, true⟩) ⟨[1], [], .NORMAL⟩).1.disk 1
      = (⟨[1], [], .NORMAL⟩ : LogRecord).encode := by
  have h := C6_segment_rotation (initialState ⟨4, true⟩) ⟨[1], [], .NORMAL⟩
  have hgt : (initialState ⟨4, true⟩).writeOff
      + (⟨[1], [], .NORMAL⟩ : LogRecord).encode.length
      > (initialState ⟨4, true⟩).options.data_file_size := by decide
  have h1 := h.1 hgt
  exact ⟨hgt, h1.1, h1.2.2.2.2.2 ⟨rfl, fun fid _ => rfl⟩⟩

/-! ### Single-key operation sequences (for the put/get stability claim). -/

/-- A public single-key mutating operation of the engine. -/
inductive EngOp where
  | putOp : List Nat → List Nat → EngOp
  | delOp : List Nat → EngOp

/-- The key an operation addresses. -/
def EngOp.key : EngOp → List Nat
  | .putOp k _ => k
  | .delOp k => k

/-- Run one operation; a returned error leaves the state unchanged (the
only failure of `put`/`delete` in the model is the empty-key rejection,
which writes nothing). -/
def applyOp (s : EngineState) (op : EngOp) : EngineState :=
  match op with
  | .putOp k v =>
    match Engine.put s k v with
    | .ok s' => s'
    | .error _ => s
  | .delOp k =>
    match Engine.delete s k with
    | .ok s' => s'
    | .error _ => s

/-- Run a sequence of operations. -/
def applyOps (s : EngineState) (ops : List EngOp) : EngineState :=
  ops.foldl applyOp s

/-! #### Association-list lemmas for the keydir -/

theorem btreeGet_insert_same (t : List (List Nat × LogRecordPos))
    (key : List Nat) (pos : LogRecordPos) :
    btreeGet (btreeInsert t key pos) key = some pos := by
  induction t with
  | nil => simp [btreeInsert, btreeGet]
  | cons hd tl ih =>
    obtain ⟨k, p⟩ := hd
    rw [btreeInsert]
    by_cases hlt : lexLtb key k
    · simp [hlt, btreeGet]
    · by_cases heq : k = key
      · subst heq
        simp [hlt, btreeGet]
      · simp [hlt, heq, btreeGet, ih]

theorem btreeGet_insert_ne (t : List (List Nat × LogRecordPos))
    (key' : List Nat) (pos : LogRecordPos) (key : List Nat) (h : key' ≠ key) :
    btreeGet (btreeInsert t key' pos) key = btreeGet t key := by
  induction t with
  | nil => simp [btreeInsert, btreeGet, h]
  | cons hd tl ih =>
    obtain ⟨k, p⟩ := hd
    rw [btreeInsert]
    by_cases hlt : lexLtb key' k
    · simp [hlt, btreeGet, h]
    · by_cases heq : k = key'
      · subst heq
        simp [hlt, btreeGet, h]
      · by_cases hk : k = key
        · subst hk
          simp [hlt, heq, btreeGet]
        · simp [hlt, heq, btreeGet, hk, ih]

theorem btreeGet_remove_ne (t : List (List Nat × LogRecordPos))
    (key' key : List Nat) (h : key' ≠ key) :
    btreeGet (btreeRemove t key').1 key = btreeGet t key := by
  induction t with
  | nil => simp [btreeRemove, btreeGet]
  | cons hd tl ih =>
    obtain ⟨k, p⟩ := hd
    rw [btreeRemove]
    by_cases heq : k = key'
    · subst heq
      simp [btreeGet, h]
    · by_cases hk : k = key
      · subst hk
        simp [heq, btreeGet]
      · simp [heq, btreeGet, hk, ih]

/-! #### The record a key's put leaves on disk, and its stability -/

/-- The keydir entry for `key` points at a location that holds exactly the
encoded Normal record of `put(key, value)` and is reachable through the
active or an older segment. -/
def TracksKV (s : EngineState) (key value : List Nat) : Prop :=
  ∃ pos pre tail,
    btreeGet s.index key = some pos ∧
    (pos.file_id = s.activeFid ∨ pos.file_id ∈ s.olderFids) ∧
    s.disk pos.file_id =
      pre ++ (LogRecord.encode
        ⟨log_record_key_with_seq key NON_TRANSACTION_SEQ_NO, value, .NORMAL⟩)
        ++ tail ∧
    pos.offset = pre.length

/-- Everything `append_log_record` does to the state, under the invariant. -/
theorem append_log_record_effects (s : EngineState) (r : LogRecord)
    (hinv : EngineInv s) :
    EngineInv (append_log_record s r).1 ∧
    (append_log_record s r).1.index = s.index ∧
    (append_log_record s r).2.file_id = (append_log_record s r).1.activeFid ∧
    (append_log_record s r).1.disk (append_log_record s r).2.file_id
      = s.disk (append_log_record s r).2.file_id ++ r.encode ∧
    (append_log_record s r).2.offset
      = (s.disk (append_log_record s r).2.file_id).length ∧
    (∀ fid, (append_log_record s r).1.disk fid = s.disk fid ∨
      (append_log_record s r).1.disk fid = s.disk fid ++ r.encode) ∧
    (∀ fid, fid = s.activeFid ∨ fid ∈ s.olderFids →
      fid = (append_log_record s r).1.activeFid ∨
      fid ∈ (append_log_record s r).1.olderFids) := by
  obtain ⟨hoff, hfresh⟩ := hinv
  by_cases hrot : s.writeOff + r.encode.length > s.options.data_file_size
  · simp only [append_log_record, if_pos hrot]
    have hdisk1 : s.disk (s.activeFid + 1) = [] :=
      hfresh (s.activeFid + 1) (by omega)
    refine ⟨⟨by simp [hdisk1], fun fid hfid => ?_⟩, by simp, by simp, by simp,
      by simp [hdisk1], fun fid => ?_, fun fid hfid => ?_⟩
    · have hfid' : s.activeFid + 1 < fid := hfid
      show (if fid = s.activeFid + 1 then s.disk fid ++ r.encode else s.disk fid)
        = []
      rw [if_neg (by omega)]
      exact hfresh fid (by omega)
    · by_cases h : fid = s.activeFid + 1 <;> simp [h]
    · simp only [List.mem_cons]
      tauto
  · simp only [append_log_record, if_neg hrot]
    refine ⟨⟨by simp [hoff], fun fid hfid => ?_⟩, by simp, by simp, by simp,
      by simp [hoff], fun fid => ?_, fun fid hfid => ?_⟩
    · have hfid' : s.activeFid < fid := hfid
      show (if fid = s.activeFid then s.disk fid ++ r.encode else s.disk fid)
        = []
      rw [if_neg (by omega)]
      exact hfresh fid hfid'
    · by_cases h : fid = s.activeFid <;> simp [h]
    · exact hfid

/-- `Engine::put` on a non-empty key: the state it returns. -/
theorem Engine.put_ok (s : EngineState) (key value : List Nat) (hk : key ≠ []) :
    Engine.put s key value =
      .ok { (append_log_record s
            ⟨log_record_key_with_seq key NON_TRANSACTION_SEQ_NO, value,
              .NORMAL⟩).1 with
          index := btreeInsert (append_log_record s
            ⟨log_record_key_with_seq key NON_TRANSACTION_SEQ_NO, value,
              .NORMAL⟩).1.index key
            (append_log_record s
            ⟨log_record_key_with_seq key NON_TRANSACTION_SEQ_NO, value,
              .NORMAL⟩).2 } := by
  unfold Engine.put
  rw [if_neg hk]
  rfl

/-- `append_log_record` never touches the keydir. -/
theorem append_log_record_effects_index (s : EngineState) (r : LogRecord) :
    (append_log_record s r).1.index = s.index := by
  unfold append_log_record
  by_cases h : s.writeOff + r.encode.length > s.options.data_file_size <;>
    simp [h]

theorem btreeRemove_present (t : List (List Nat × LogRecordPos))
    (key : List Nat) (p : LogRecordPos) (h : btreeGet t key = some p) :
    (btreeRemove t key).2 = true := by
  induction t with
  | nil => simp [btreeGet] at h
  | cons hd tl ih =>
    obtain ⟨k, p0⟩ := hd
    rw [btreeGet] at h
    rw [btreeRemove]
    by_cases hk : k = key
    · simp [hk]
    · rw [if_neg hk] at h
      simp [hk, ih h]

/-- `Engine::delete` on a present, non-empty key: the state it returns. -/
theorem Engine.delete_ok (s : EngineState) (key : List Nat) (hk : key ≠ [])
    (p : LogRecordPos) (hp : btreeGet s.index key = some p) :
    Engine.delete s key =
      .ok { (append_log_record s
            ⟨log_record_key_with_seq key NON_TRANSACTION_SEQ_NO, [],
              .DElETED⟩).1 with
          index := (btreeRemove (append_log_record s
            ⟨log_record_key_with_seq key NON_TRANSACTION_SEQ_NO, [],
              .DElETED⟩).1.index key).1 } := by
  have hidx : (append_log_record s
      ⟨log_record_key_with_seq key NON_TRANSACTION_SEQ_NO, [],
        .DElETED⟩).1.index = s.index :=
    (append_log_record_effects_index s _)
  have hrem : (btreeRemove (append_log_record s
      ⟨log_record_key_with_seq key NON_TRANSACTION_SEQ_NO, [],
        .DElETED⟩).1.index key).2 = true :=
    btreeRemove_present _ _ p (by rw [hidx]; exact hp)
  unfold Engine.delete
  rw [if_neg hk]
  simp only [hp, btreeDelete]
  rw [if_pos hrem]

/-- `get` returns the tracked value. -/
theorem Engine.get_of_tracks (s : EngineState) (key value : List Nat)
    (hk : key ≠ []) (hklen : key.length + 1 < 2 ^ 32)
    (hvlen : value.length < 2 ^ 32) (ht : TracksKV s key value) :
    Engine.get s key = .ok value := by
  obtain ⟨pos, pre, tail, hget, hfid, hdisk, hoffk⟩ := ht
  unfold Engine.get
  rw [if_neg hk]
  simp only [hget]
  unfold Engine.get_value_by_position
  have hread : read_log_record (s.disk pos.file_id) pos.offset =
      .ok (⟨log_record_key_with_seq key NON_TRANSACTION_SEQ_NO, value, .NORMAL⟩,
        (LogRecord.encode ⟨log_record_key_with_seq key NON_TRANSACTION_SEQ_NO,
          value, .NORMAL⟩).length) := by
    rw [hdisk, hoffk]
    apply read_log_record_encode
    · simp [log_record_key_with_seq, NON_TRANSACTION_SEQ_NO, varintEncode,
        varintEncodeAux]
    · simp only [log_record_key_with_seq, NON_TRANSACTION_SEQ_NO, varintEncode,
        varintEncodeAux, List.length_append]
      norm_num
      omega
    · exact hvlen
  rcases hfid with hfid | hfid
  · rw [if_pos hfid.symm, hread]
    simp
  · by_cases hact : s.activeFid = pos.file_id
    · rw [if_pos hact, hread]
      simp
    · rw [if_neg hact, if_pos hfid, hread]
      simp

/-- One engine operation addressing a different key preserves the invariant
and the tracked record of `key`. -/
theorem applyOp_preserves (s : EngineState) (op : EngOp) (key value : List Nat)
    (hne : op.key ≠ key) (hinv : EngineInv s) (ht : TracksKV s key value) :
    EngineInv (applyOp s op) ∧ TracksKV (applyOp s op) key value := by
  obtain ⟨pos, pre, tail, hget, hfid, hdisk, hoffk⟩ := ht
  cases op with
  | putOp k v =>
    simp only [EngOp.key] at hne
    by_cases hk : k = []
    · have hnoop : applyOp s (.putOp k v) = s := by
        simp [applyOp, Engine.put, hk]
      rw [hnoop]
      exact ⟨hinv, pos, pre, tail, hget, hfid, hdisk, hoffk⟩
    · obtain ⟨hinv', hidx, hposfid, hdiskpos, hoffpos, hframe, hmem⟩ :=
        append_log_record_effects s
          ⟨log_record_key_with_seq k NON_TRANSACTION_SEQ_NO, v, .NORMAL⟩ hinv
      have happ : applyOp s (.putOp k v) =
          { (append_log_record s
              ⟨log_record_key_with_seq k NON_TRANSACTION_SEQ_NO, v,
                .NORMAL⟩).1 with
            index := btreeInsert (append_log_record s
              ⟨log_record_key_with_seq k NON_TRANSACTION_SEQ_NO, v,
                .NORMAL⟩).1.index k
              (append_log_record s
              ⟨log_record_key_with_seq k NON_TRANSACTION_SEQ_NO, v,
                .NORMAL⟩).2 } := by
        simp [applyOp, Engine.put_ok s k v hk]
      rw [happ]
      refine ⟨hinv', pos, ?_⟩
      have hgetNew : btreeGet (btreeInsert (append_log_record s
          ⟨log_record_key_with_seq k NON_TRANSACTION_SEQ_NO, v,
            .NORMAL⟩).1.index k
          (append_log_record s
          ⟨log_record_key_with_seq k NON_TRANSACTION_SEQ_NO, v,
            .NORMAL⟩).2) key = some pos := by
        rw [btreeGet_insert_ne _ _ _ _ hne, hidx]
        exact hget
      rcases hframe pos.file_id with hf | hf
      · exact ⟨pre, tail, hgetNew, hmem _ hfid, by rw [hf]; exact hdisk, hoffk⟩
      · refine ⟨pre, tail ++ (⟨log_record_key_with_seq k NON_TRANSACTION_SEQ_NO,
          v, .NORMAL⟩ : LogRecord).encode, hgetNew, hmem _ hfid, ?_, hoffk⟩
        rw [hf, hdisk]
        simp
  | delOp k =>
    simp only [EngOp.key] at hne
    by_cases hk : k = []
    · have hnoop : applyOp s (.delOp k) = s := by
        simp [applyOp, Engine.delete, hk]
      rw [hnoop]
      exact ⟨hinv, pos, pre, tail, hget, hfid, hdisk, hoffk⟩
    · cases hgk : btreeGet s.index k with
      | none =>
        have hnoop : applyOp s (.delOp k) = s := by
          simp [applyOp, Engine.delete, hk, hgk]
        rw [hnoop]
        exact ⟨hinv, pos, pre, tail, hget, hfid, hdisk, hoffk⟩
      | some p =>
        obtain ⟨hinv', hidx, hposfid, hdiskpos, hoffpos, hframe, hmem⟩ :=
          append_log_record_effects s
            ⟨log_record_key_with_seq k NON_TRANSACTION_SEQ_NO, [], .DElETED⟩ hinv
        have happ : applyOp s (.delOp k) =
            { (append_log_record s
                ⟨log_record_key_with_seq k NON_TRANSACTION_SEQ_NO, [],
                  .DElETED⟩).1 with
              index := (btreeRemove (append_log_record s
                ⟨log_record_key_with_seq k NON_TRANSACTION_SEQ_NO, [],
                  .DElETED⟩).1.index k).1 } := by
          simp [applyOp, Engine.delete_ok s k hk p hgk]
        rw [happ]
        refine ⟨hinv', pos, ?_⟩
        have hgetNew : btreeGet (btreeRemove (append_log_record s
            ⟨log_record_key_with_seq k NON_TRANSACTION_SEQ_NO, [],
              .DElETED⟩).1.index k).1 key = some pos := by
          rw [btreeGet_remove_ne _ _ _ hne, hidx]
          exact hget
        rcases hframe pos.file_id with hf | hf
        · exact ⟨pre, tail, hgetNew, hmem _ hfid, by rw [hf]; exact hdisk, hoffk⟩
        · refine ⟨pre, tail ++ (⟨log_record_key_with_seq k NON_TRANSACTION_SEQ_NO,
            [], .DElETED⟩ : LogRecord).encode, hgetNew, hmem _ hfid, ?_, hoffk⟩
          rw [hf, hdisk]
          simp

/-- Sequences of operations on other keys preserve the tracked record. -/
theorem applyOps_preserves (ops : List EngOp) :
    ∀ s key value, (∀ op ∈ ops, op.key ≠ key) → EngineInv s →
    TracksKV s key value →
    EngineInv (applyOps s ops) ∧ TracksKV (applyOps s ops) key value := by
  induction ops with
  | nil => intro s key value _ hinv ht; exact ⟨hinv, ht⟩
  | cons op ops ih =>
    intro s key value hops hinv ht
    have hstep := applyOp_preserves s op key value
      (hops op (List.mem_cons_self op ops)) hinv ht
    have := ih (applyOp s op) key value
      (fun o ho => hops o (List.mem_cons_of_mem op ho)) hstep.1 hstep.2
    simpa [applyOps, List.foldl_cons] using this

/-- C3: after `put(key, value)` succeeds on an engine satisfying the state
invariant, `get(key)` returns `value` after any further sequence of
`put`/`delete` operations none of which addresses `key`.  (Key and value
lengths are bounded by the codec's u32 framing range.) -/
theorem C3_put_then_get (s : EngineState) (key value : List Nat)
    (ops : List EngOp) (hinv : EngineInv s) (hk : key ≠ [])
    (hklen : key.length + 1 < 2 ^ 32) (hvlen : value.length < 2 ^ 32)
    (hops : ∀ op ∈ ops, op.key ≠ key) :
    ∀ s', Engine.put s key value = .ok s' →
      Engine.get (applyOps s' ops) key = .ok value := by
  intro s' hput
  rw [Engine.put_ok s key value hk] at hput
  injection hput with hs'
  obtain ⟨hinv', hidx, hposfid, hdiskpos, hoffpos, hframe, hmem⟩ :=
    append_log_record_effects s
      ⟨log_record_key_with_seq key NON_TRANSACTION_SEQ_NO, value, .NORMAL⟩ hinv
  have h0 : EngineInv s' ∧ TracksKV s' key value := by
    rw [← hs']
    refine ⟨hinv', (append_log_record s
        ⟨log_record_key_with_seq key NON_TRANSACTION_SEQ_NO, value,
          .NORMAL⟩).2,
      s.disk (append_log_record s
        ⟨log_record_key_with_seq key NON_TRANSACTION_SEQ_NO, value,
          .NORMAL⟩).2.file_id, [], btreeGet_insert_same _ _ _,
      Or.inl hposfid, ?_, hoffpos⟩
    rw [List.append_nil]
    exact hdiskpos
  have hfin := applyOps_preserves ops s' key value hops h0.1 h0.2
  exact Engine.get_of_tracks _ _ _ hk hklen hvlen hfin.2

/-- Witness for C3: put `[1] ↦ [2]` on a fresh engine, then put and delete a
different key `[2]`; get `[1]` still returns `[2]`. -/
theorem C3_put_then_get_witness :
    Engine.get (applyOps (applyOp (initialState ⟨1024, true⟩)
      (.putOp [1] [2])) [.putOp [2] [3], .delOp [2]]) [1] = .ok [2] := by
  have h := C3_put_then_get (initialState ⟨1024, true⟩) [1] [2]
    [.putOp [2] [3], .delOp [2]] ⟨rfl, fun fid _ => rfl⟩ (by decide)
    (by decide) (by decide) (by decide)
  exact h _ rfl

/-! ### Index iterator: `src/index/btree.rs` (`Btree::iterator`,
`BtreeIterator::next`) and `src/iterator.rs` (`Iterator::next`). -/

/-- `IteratorOptions` (`src/options.rs`); `pfx` is the source's `prefix`
field (renamed: `prefix` is a Lean keyword). -/
structure IteratorOptions where
  pfx : List Nat
  reverse : Bool
deriving Repr, DecidableEq

/-- `BtreeIterator`: snapshot items, cursor, options. -/
structure BtreeIterator where
  items : List (List Nat × LogRecordPos)
  curr_index : Nat
  options : IteratorOptions
deriving Repr, DecidableEq

/-- `Btree::iterator`: snapshot the tree in ascending key order (the order of
`BTreeMap::iter`), reversed when `options.reverse`. -/
def btreeIterator (tree : List (List Nat × LogRecordPos))
    (options : IteratorOptions) : BtreeIterator :=
  { items := if options.reverse then tree.reverse else tree
    curr_index := 0
    options := options }

/-- The while-let scan of `BtreeIterator::next`, structurally recursing over
the items still after the cursor (`i` tracks the absolute index): returns the
first prefix-matching item and the cursor position just past it. -/
def btreeIterScanAux (pfx : List Nat) :
    List (List Nat × LogRecordPos) → Nat →
    Option ((List Nat × LogRecordPos) × Nat)
  | [], _ => none
  | item :: rest, i =>
    if pfx.isEmpty || pfx.isPrefixOf item.1 then some (item, i + 1)
    else btreeIterScanAux pfx rest (i + 1)

/-- `BtreeIterator::next`: `None` past the end, otherwise scan forward from
the cursor skipping entries that do not match the prefix. -/
def BtreeIterator.next (it : BtreeIterator) :
    Option ((List Nat × LogRecordPos) × BtreeIterator) :=
  if it.curr_index ≥ it.items.length then none
  else
    match btreeIterScanAux it.options.pfx (it.items.drop it.curr_index)
        it.curr_index with
    | none => none
    | some (item, inew) => some (item, { it with curr_index := inew })

/-- Drain the iterator (enough fuel makes this total; the iterator's cursor
strictly advances). -/
def iterCollect : Nat → BtreeIterator → List (List Nat × LogRecordPos)
  | 0, _ => []
  | fuel + 1, it =>
    match it.next with
    | none => []
    | some (item, it') => item :: iterCollect fuel it'

/-- All the entries an iterator over `tree` yields. -/
def iteratorOutput (tree : List (List Nat × LogRecordPos))
    (opts : IteratorOptions) : List (List Nat × LogRecordPos) :=
  iterCollect (tree.length + 1) (btreeIterator tree opts)

/-- The prefix filter of `BtreeIterator::next`. -/
def prefMatch (pfx : List Nat) (item : List Nat × LogRecordPos) : Bool :=
  pfx.isEmpty || pfx.isPrefixOf item.1

theorem btreeIterScanAux_none (pfx : List Nat) :
    ∀ rem i, btreeIterScanAux pfx rem i = none →
      rem.filter (prefMatch pfx) = [] := by
  intro rem
  induction rem with
  | nil => intro i _; rfl
  | cons a rest ih =>
    intro i h
    rw [btreeIterScanAux] at h
    by_cases hp : (pfx.isEmpty || pfx.isPrefixOf a.1) = true
    · rw [if_pos hp] at h
      exact absurd h (by simp)
    · rw [if_neg hp] at h
      simp only [List.filter_cons, prefMatch]
      rw [if_neg hp]
      exact ih (i + 1) h

theorem btreeIterScanAux_some (pfx : List Nat) :
    ∀ rem i item inew, btreeIterScanAux pfx rem i = some (item, inew) →
      ∃ k, inew = i + (k + 1) ∧ k + 1 ≤ rem.length ∧
        rem.filter (prefMatch pfx) =
          item :: ((rem.drop (k + 1)).filter (prefMatch pfx)) := by
  intro rem
  induction rem with
  | nil => intro i item inew h; exact absurd h (by simp [btreeIterScanAux])
  | cons a rest ih =>
    intro i item inew h
    rw [btreeIterScanAux] at h
    by_cases hp : (pfx.isEmpty || pfx.isPrefixOf a.1) = true
    · rw [if_pos hp] at h
      injection h with h'
      injection h' with h1 h2
      subst h1
      refine ⟨0, by omega, by simp, ?_⟩
      simp [List.filter_cons, prefMatch, hp]
    · rw [if_neg hp] at h
      obtain ⟨k, hk1, hk2, hk3⟩ := ih (i + 1) item inew h
      refine ⟨k + 1, by omega, by simp; omega, ?_⟩
      simp only [List.filter_cons, prefMatch]
      rw [if_neg hp]
      simpa using hk3

theorem iterCollect_spec (fuel : Nat) :
    ∀ (items : List (List Nat × LogRecordPos)) (i : Nat)
      (opts : IteratorOptions), (items.drop i).length < fuel →
      iterCollect fuel ⟨items, i, opts⟩ =
        (items.drop i).filter (prefMatch opts.pfx) := by
  induction fuel with
  | zero => intro items i opts h; omega
  | succ fuel ih =>
    intro items i opts h
    rw [iterCollect]
    rw [BtreeIterator.next]
    by_cases hend : i ≥ items.length
    · rw [if_pos hend]
      rw [List.drop_eq_nil_of_le (by omega)]
      rfl
    · rw [if_neg hend]
      cases hscan : btreeIterScanAux opts.pfx (items.drop i) i with
      | none =>
        simp only []
        rw [btreeIterScanAux_none _ _ _ hscan]
      | some v =>
        obtain ⟨item, inew⟩ := v
        obtain ⟨k, hk1, hk2, hk3⟩ := btreeIterScanAux_some _ _ _ _ _ hscan
        simp only []
        rw [hk3]
        congr 1
        have hdrop : items.drop inew = (items.drop i).drop (k + 1) := by
          rw [List.drop_drop, hk1]
        have hlen : ((items.drop i).drop (k + 1)).length < fuel := by
          simp only [List.length_drop] at h ⊢
          omega
        have := ih items inew opts (by rw [hdrop]; exact hlen)
        rw [this, hdrop]

/-- The iterator output over a snapshot is exactly the (reversed, if
requested) snapshot filtered by the prefix test. -/
theorem iteratorOutput_eq_filter (tree : List (List Nat × LogRecordPos))
    (opts : IteratorOptions) :
    iteratorOutput tree opts =
      (if opts.reverse then tree.reverse else tree).filter
        (prefMatch opts.pfx) := by
  unfold iteratorOutput btreeIterator
  have h := iterCollect_spec (tree.length + 1)
    (if opts.reverse then tree.reverse else tree) 0 opts
    (by by_cases hr : opts.reverse <;> simp [hr])
  simpa using h

theorem lexLtb_self (k : List Nat) : lexLtb k k = false := by
  induction k with
  | nil => rfl
  | cons a rest ih => simp [lexLtb, ih]

theorem lexLtb_ne (a b : List Nat) (h : lexLtb a b = true) : a ≠ b := by
  intro heq
  subst heq
  rw [lexLtb_self] at h
  exact absurd h (by simp)

theorem prefMatch_iff (pfx : List Nat) (item : List Nat × LogRecordPos) :
    prefMatch pfx item = true ↔ pfx <+: item.1 := by
  cases pfx with
  | nil => simp [prefMatch]
  | cons a rest => simp [prefMatch, List.isPrefixOf_iff_prefix]

/-- C5: over any keydir snapshot (sorted in strictly ascending
byte-lexicographic key order, as a `BTreeMap` iteration is), the iterator
with prefix `P` yields exactly the keys that start with `P`, without
duplicates, in ascending key order when `reverse = false` and descending
when `reverse = true`. -/
theorem C5_iterator_prefix_order (tree : List (List Nat × LogRecordPos))
    (opts : IteratorOptions)
    (hsorted : tree.Pairwise (fun a b => lexLtb a.1 b.1 = true)) :
    (∀ key, (∃ p, (key, p) ∈ iteratorOutput tree opts) ↔
      ((∃ p, (key, p) ∈ tree) ∧ opts.pfx <+: key)) ∧
    ((iteratorOutput tree opts).map Prod.fst).Nodup ∧
    (opts.reverse = false →
      ((iteratorOutput tree opts).map Prod.fst).Pairwise
        (fun a b => lexLtb a b = true)) ∧
    (opts.reverse = true →
      ((iteratorOutput tree opts).map Prod.fst).Pairwise
        (fun a b => lexLtb b a = true)) := by
  rw [iteratorOutput_eq_filter]
  have hmemItems : ∀ x : List Nat × LogRecordPos,
      x ∈ (if opts.reverse then tree.reverse else tree) ↔ x ∈ tree := by
    intro x
    by_cases hr : opts.reverse <;> simp [hr]
  have hpairItems : (if opts.reverse then tree.reverse else tree).Pairwise
      (fun a b => if opts.reverse then lexLtb b.1 a.1 = true
        else lexLtb a.1 b.1 = true) := by
    by_cases hr : opts.reverse
    · simp only [hr, if_pos]
      exact (List.pairwise_reverse).mpr (by simpa using hsorted)
    · simp only [hr, if_neg, Bool.false_eq_true, if_false]
      simpa using hsorted
  have hpairOut : ((if opts.reverse then tree.reverse else tree).filter
      (prefMatch opts.pfx)).Pairwise
      (fun a b => if opts.reverse then lexLtb b.1 a.1 = true
        else lexLtb a.1 b.1 = true) :=
    hpairItems.sublist (List.filter_sublist _)
  refine ⟨?_, ?_, ?_, ?_⟩
  · intro key
    constructor
    · rintro ⟨p, hp⟩
      rw [List.mem_filter] at hp
      exact ⟨⟨p, (hmemItems _).mp hp.1⟩, (prefMatch_iff _ _).mp hp.2⟩
    · rintro ⟨⟨p, hp⟩, hpre⟩
      refine ⟨p, ?_⟩
      rw [List.mem_filter]
      exact ⟨(hmemItems _).mpr hp, (prefMatch_iff _ _).mpr hpre⟩
  · show List.Pairwise _ _
    rw [List.pairwise_map]
    refine hpairOut.imp ?_
    intro a b hab
    by_cases hr : opts.reverse
    · rw [if_pos hr] at hab
      exact (lexLtb_ne _ _ hab).symm
    · rw [if_neg hr] at hab
      exact lexLtb_ne _ _ hab
  · intro hr
    rw [List.pairwise_map]
    refine hpairOut.imp ?_
    intro a b hab
    rwa [if_neg (by simp [hr])] at hab
  · intro hr
    rw [List.pairwise_map]
    refine hpairOut.imp ?_
    intro a b hab
    rwa [if_pos (by simp [hr])] at hab

/-- Witness for C5 at a concrete sorted snapshot with prefix `[97]`. -/
theorem C5_iterator_prefix_order_witness :
    ([([97, 112], (⟨0, 0⟩ : LogRecordPos)), ([97, 113], ⟨0, 14⟩),
      ([98], ⟨0, 28⟩)] : List (List Nat × LogRecordPos)).Pairwise
      (fun a b => lexLtb a.1 b.1 = true) ∧
    ((∃ p, (([97, 112] : List Nat), p) ∈ iteratorOutput
        [([97, 112], ⟨0, 0⟩), ([97, 113], ⟨0, 14⟩), ([98], ⟨0, 28⟩)]
        ⟨[97], false⟩) ↔
      ((∃ p, (([97, 112] : List Nat), p) ∈
        ([([97, 112], (⟨0, 0⟩ : LogRecordPos)), ([97, 113], ⟨0, 14⟩),
          ([98], ⟨0, 28⟩)] : List (List Nat × LogRecordPos))) ∧
        [97] <+: [97, 112])) :=
  ⟨by decide,
    (C5_iterator_prefix_order
      [([97, 112], ⟨0, 0⟩), ([97, 113], ⟨0, 14⟩), ([98], ⟨0, 28⟩)]
      ⟨[97], false⟩ (by decide)).1 [97, 112]⟩

/-- `Iterator::next` (`src/iterator.rs`): pull the next snapshot entry and
fetch its value through `get_value_by_position`; the source `.expect`s the
fetch, so any fetch failure (returned error or inner panic) is a panic. -/
def Engine.iterNext (s : EngineState) (it : BtreeIterator) :
    RRes Errors (Option ((List Nat × List Nat) × BtreeIterator)) :=
  match it.next with
  | none => .ok none
  | some (item, it') =>
    match Engine.get_value_by_position s item.2 with
    | .ok value => .ok (some ((item.1, value), it'))
    | .err _ => .panic
    | .panic => .panic

/-- C9: `Iterator::next` panics whenever fetching the value at the next
snapshotted keydir location fails for any reason (tombstone at the location,
unknown file-id, read or CRC error — every non-`ok` outcome of
`get_value_by_position`), instead of surfacing the error; and it cannot panic
when every snapshot location reads back a value. -/
theorem C9_iterator_next_panics_on_fetch_failure (s : EngineState)
    (it : BtreeIterator) :
    (∀ item it', it.next = some (item, it') →
      (¬ ∃ v, Engine.get_value_by_position s item.2 = .ok v) →
      Engine.iterNext s it = .panic) ∧
    ((∀ item it', it.next = some (item, it') →
        ∃ v, Engine.get_value_by_position s item.2 = .ok v) →
      Engine.iterNext s it ≠ .panic) := by
  constructor
  · intro item it' hnext hfail
    unfold Engine.iterNext
    simp only [hnext]
    cases hv : Engine.get_value_by_position s item.2 with
    | ok v => exact absurd ⟨v, hv⟩ hfail
    | err e => rfl
    | panic => rfl
  · intro hok
    unfold Engine.iterNext
    cases hnext : it.next with
    | none => simp
    | some pr =>
      obtain ⟨item, it'⟩ := pr
      obtain ⟨v, hv⟩ := hok item it' hnext
      simp [hv]

/-- A state whose keydir maps `[1]` to location `(0, 0)`, which on disk holds
a tombstone record (the defensive situation the keydir is never supposed to
reach). -/
def tombstoneState : EngineState :=
  { options := ⟨1024, true⟩
    activeFid := 0
    writeOff := (LogRecord.encode ⟨[0, 1], [], .DElETED⟩).length
    olderFids := []
    disk := fun fid =>
      if fid = 0 then LogRecord.encode ⟨[0, 1], [], .DElETED⟩ else []
    index := [([1], ⟨0, 0⟩)]
    seq_no := 1 }

/-- The iterator snapshot of `tombstoneState`. -/
def tombstoneIter : BtreeIterator := ⟨[([1], ⟨0, 0⟩)], 0, ⟨[], false⟩⟩

set_option maxRecDepth 4000 in
/-- Witness for C9: with a tombstone at the snapshotted location, `next`
panics. -/
theorem C9_iterator_next_panics_witness :
    Engine.iterNext tombstoneState tombstoneIter = .panic := by
  have hval : Engine.get_value_by_position tombstoneState ⟨0, 0⟩ =
      .err .KeyNotFound := by decide
  refine (C9_iterator_next_panics_on_fetch_failure tombstoneState
    tombstoneIter).1 (⟨[1], ⟨0, 0⟩⟩ : List Nat × LogRecordPos)
    ⟨[([1], ⟨0, 0⟩)], 1, ⟨[], false⟩⟩ (by decide) ?_
  rintro ⟨v, hv⟩
  rw [hval] at hv
  exact absurd hv (by simp)

/-! ### Recovery replay: `Engine::load_index_from_data_files` (`src/db.rs`).

`TransactionRecord` is referenced by `db.rs` from `data::log_record` but its
declaration is missing from the given `log_record.rs`; modelled from the spec
(§4.7): a buffered in-flight entry `{record, location}` whose record key has
the stamp stripped. -/
structure TransactionRecord where
  record : LogRecord
  pos : LogRecordPos
deriving DecidableEq, Repr

/-- The `transaction_records : HashMap<usize, Vec<TransactionRecord>>` of the
replay loop, as an association list (keys unique). -/
def txnsGet : List (Nat × List TransactionRecord) → Nat →
    Option (List TransactionRecord)
  | [], _ => none
  | (k, l) :: rest, s => if k = s then some l else txnsGet rest s

/-- `HashMap::remove`. -/
def txnsRemove : List (Nat × List TransactionRecord) → Nat →
    List (Nat × List TransactionRecord)
  | [], _ => []
  | (k, l) :: rest, s => if k = s then rest else (k, l) :: txnsRemove rest s

/-- `entry(seq_no).or_insert(Vec::new()).push(tr)`. -/
def txnsPush : List (Nat × List TransactionRecord) → Nat →
    TransactionRecord → List (Nat × List TransactionRecord)
  | [], s, tr => [(s, [tr])]
  | (k, l) :: rest, s, tr =>
    if k = s then (k, l ++ [tr]) :: rest else (k, l) :: txnsPush rest s tr

/-- The state threaded through the replay loop.  `applied` is an audit trail
recording, in order, every `(key, type, location)` triple passed to
`update_index` — it changes nothing about the computation and lets the
atomicity claim speak about which records were applied. -/
structure ReplayState where
  index : List (List Nat × LogRecordPos)
  txns : List (Nat × List TransactionRecord)
  maxSeq : Nat
  applied : List (List Nat × LogRecordType × LogRecordPos)
deriving DecidableEq, Repr

/-- `Engine::update_index`: Normal inserts, Deleted removes, anything else
(TxnFinish) does nothing. -/
def update_index (idx : List (List Nat × LogRecordPos)) (key : List Nat)
    (rec_type : LogRecordType) (pos : LogRecordPos) :
    List (List Nat × LogRecordPos) :=
  let idx1 := if rec_type = .NORMAL then (btreePut idx key pos).1 else idx
  if rec_type = .DElETED then (btreeDelete idx1 key).1 else idx1

/-- `if seq_no > current_seq_no { current_seq_no = seq_no }`. -/
def stepMax (seq_no : Nat) (st : ReplayState) : ReplayState :=
  { st with maxSeq := if seq_no > st.maxSeq then seq_no else st.maxSeq }

/-- The body of the replay loop of `load_index_from_data_files` for one
decoded record at `pos`: split the stamp (`unwrap` panics on a bad stamp);
apply seq-0 records directly; on TxnFinish apply the buffered batch
(`unwrap` panics when no records were buffered under that seq_no); otherwise
buffer the record (stamp stripped) under its seq_no; finally track the
running maximum seq_no. -/
def replayStep (st : ReplayState) (log_record : LogRecord)
    (pos : LogRecordPos) : RRes Errors ReplayState :=
  match parse_log_record_key log_record.key with
  | none => .panic
  | some rk =>
    let real_key := rk.1
    let seq_no := rk.2
    if seq_no = NON_TRANSACTION_SEQ_NO then
      .ok (stepMax seq_no
        { st with
            index := update_index st.index real_key log_record.rec_type pos
            applied := st.applied ++ [(real_key, log_record.rec_type, pos)] })
    else if log_record.rec_type = .TxnFinish then
      match txnsGet st.txns seq_no with
      | none => .panic
      | some records =>
        .ok (stepMax seq_no
          { st with
              index := records.foldl (fun idx tr =>
                update_index idx tr.record.key tr.record.rec_type tr.pos)
                st.index
              applied := st.applied ++ records.map (fun tr =>
                (tr.record.key, tr.record.rec_type, tr.pos))
              txns := txnsRemove st.txns seq_no })
    else
      .ok (stepMax seq_no
        { st with
            txns := txnsPush st.txns seq_no
              ⟨{ log_record with key := real_key }, pos⟩ })

/-- Replay a decoded record stream. -/
def replayList (st : ReplayState) :
    List (LogRecord × LogRecordPos) → RRes Errors ReplayState
  | [] => .ok st
  | rp :: rest =>
    match replayStep st rp.1 rp.2 with
    | .ok st' => replayList st' rest
    | .err e => .err e
    | .panic => .panic

/-- The replay state at the start of `load_index_from_data_files`: fresh
keydir, no in-flight transactions, `current_seq_no = 0`. -/
def initialReplayState : ReplayState := ⟨[], [], 0, []⟩

/-- The inner offset loop of `load_index_from_data_files` over one data
file's bytes: read a record, replay it, advance by its size; the EOF
sentinel ends the file, any other read error is surfaced.  `fuel` is an
upper bound on the number of iterations (each record consumes at least one
byte, so `file.length + 1` always suffices; exhausted fuel is an unreached
`panic`). -/
def loadFileLoop : Nat → List Nat → Nat → Nat → ReplayState →
    RRes Errors (ReplayState × Nat)
  | 0, _, _, _, _ => .panic
  | fuel + 1, file, file_id, offset, st =>
    match read_log_record file offset with
    | .err e => if e = .ReadDataFileEOF then .ok (st, offset) else .err e
    | .panic => .panic
    | .ok rs =>
      match replayStep st rs.1 ⟨file_id, offset⟩ with
      | .ok st' => loadFileLoop fuel file file_id (offset + rs.2) st'
      | .err e => .err e
      | .panic => .panic

/-- The outer loop of `load_index_from_data_files` over the sorted data
files `(file_id, bytes)`; carries the final offset reached in the last file
replayed (which `open` installs as the active file's write offset). -/
def loadFilesLoop : List (Nat × List Nat) → ReplayState → Nat →
    RRes Errors (ReplayState × Nat)
  | [], st, lastOff => .ok (st, lastOff)
  | (file_id, bytes) :: rest, st, _ =>
    match loadFileLoop (bytes.length + 1) bytes file_id 0 st with
    | .ok so => loadFilesLoop rest so.1 so.2
    | .err e => .err e
    | .panic => .panic

/-- `load_index_from_data_files` over the sorted data-file list: empty
directory returns immediately with `current_seq_no = 0`. -/
def load_index_from_data_files (files : List (Nat × List Nat)) :
    RRes Errors (ReplayState × Nat) :=
  if files.isEmpty then .ok (initialReplayState, 0)
  else loadFilesLoop files initialReplayState 0

/-- The sequence-counter initialization of `Engine::open`: the counter starts
at 1 and is overwritten with `current_seq_no + 1` when recovery returns a
positive `current_seq_no`. -/
def openSeqNo (files : List (Nat × List Nat)) : RRes Errors Nat :=
  match load_index_from_data_files files with
  | .ok so => .ok (if so.1.maxSeq > 0 then so.1.maxSeq + 1 else 1)
  | .err e => .err e
  | .panic => .panic

/-! #### The decoded record stream (the same read protocol, without the
replay), used to state what a log contains. -/

/-- Decode the record stream of one file. -/
def decodeFileLoop : Nat → List Nat → Nat → Nat →
    RRes Errors (List (LogRecord × LogRecordPos) × Nat)
  | 0, _, _, _ => .panic
  | fuel + 1, file, file_id, offset =>
    match read_log_record file offset with
    | .err e => if e = .ReadDataFileEOF then .ok ([], offset) else .err e
    | .panic => .panic
    | .ok rs =>
      match decodeFileLoop fuel file file_id (offset + rs.2) with
      | .ok rest => .ok ((rs.1, (⟨file_id, offset⟩ : LogRecordPos)) :: rest.1,
          rest.2)
      | .err e => .err e
      | .panic => .panic

/-- Decode the record streams of all files, concatenated in file order. -/
def decodeFiles : List (Nat × List Nat) →
    RRes Errors (List (LogRecord × LogRecordPos))
  | [] => .ok []
  | (file_id, bytes) :: rest =>
    match decodeFileLoop (bytes.length + 1) bytes file_id 0 with
    | .ok recs =>
      match decodeFiles rest with
      | .ok recs2 => .ok (recs.1 ++ recs2)
      | .err e => .err e
      | .panic => .panic
    | .err e => .err e
    | .panic => .panic

/-- The seq_no a record's stamped key parses to (0 on a bad stamp, where the
replay would have panicked). -/
def seqOf (r : LogRecord) : Nat :=
  ((parse_log_record_key r.key).getD ([], 0)).2

/-- The user key under the stamp. -/
def realKeyOf (r : LogRecord) : List Nat :=
  ((parse_log_record_key r.key).getD ([], 0)).1

/-- The running maximum the replay tracks, as a function of the stream. -/
def maxSeqOf (recs : List (LogRecord × LogRecordPos)) : Nat :=
  recs.foldl (fun m rp => if seqOf rp.1 > m then seqOf rp.1 else m) 0

/-- The records a finished batch with seq `s` would apply were its TxnFinish
next: the stamped non-TxnFinish records with seq `s` since the previous
TxnFinish with seq `s` (stamp stripped), in order. -/
def pendingOf (recs : List (LogRecord × LogRecordPos)) (s : Nat) :
    List TransactionRecord :=
  recs.foldl (fun acc rp =>
    if seqOf rp.1 = s then
      (if rp.1.rec_type = .TxnFinish then []
       else acc ++ [⟨{ rp.1 with key := realKeyOf rp.1 }, rp.2⟩])
    else acc) []

/-! #### Replay: structural lemmas -/

theorem replayList_append (st : ReplayState)
    (l1 l2 : List (LogRecord × LogRecordPos)) :
    replayList st (l1 ++ l2) =
      match replayList st l1 with
      | .ok st' => replayList st' l2
      | .err e => .err e
      | .panic => .panic := by
  induction l1 generalizing st with
  | nil => simp [replayList]
  | cons rp rest ih =>
    rw [List.cons_append, replayList, replayList]
    cases replayStep st rp.1 rp.2 with
    | ok st' => exact ih st'
    | err e => rfl
    | panic => rfl

theorem replayStep_ne_err (st : ReplayState) (r : LogRecord)
    (p : LogRecordPos) (e : Errors) : replayStep st r p ≠ .err e := by
  unfold replayStep
  cases parse_log_record_key r.key with
  | none => simp
  | some rk =>
    simp only []
    by_cases h0 : rk.2 = NON_TRANSACTION_SEQ_NO
    · simp [h0]
    · by_cases hfin : r.rec_type = .TxnFinish
      · simp only [h0, hfin, if_neg, if_pos, if_true]
        cases txnsGet st.txns rk.2 <;> simp [h0]
      · simp [h0, hfin]

theorem replayList_ne_err (recs : List (LogRecord × LogRecordPos)) :
    ∀ (st : ReplayState) (e : Errors), replayList st recs ≠ .err e := by
  induction recs with
  | nil => intro st e; simp [replayList]
  | cons rp rest ih =>
    intro st e
    rw [replayList]
    cases hstep : replayStep st rp.1 rp.2 with
    | ok st' => exact ih st' e
    | err e' => exact absurd hstep (replayStep_ne_err st rp.1 rp.2 e')
    | panic => simp

/-! #### HashMap (association list) lemmas for `transaction_records` -/

/-- Keys of the pending-transactions map are unique. -/
def txnsNodup (t : List (Nat × List TransactionRecord)) : Prop :=
  (t.map Prod.fst).Nodup

theorem txnsGet_push_same (t : List (Nat × List TransactionRecord)) (s : Nat)
    (tr : TransactionRecord) :
    txnsGet (txnsPush t s tr) s = some ((txnsGet t s).getD [] ++ [tr]) := by
  induction t with
  | nil => simp [txnsPush, txnsGet]
  | cons hd rest ih =>
    obtain ⟨k, l⟩ := hd
    rw [txnsPush]
    by_cases hk : k = s
    · simp [hk, txnsGet]
    · simp [hk, txnsGet, ih]

theorem txnsGet_push_ne (t : List (Nat × List TransactionRecord)) (s s' : Nat)
    (tr : TransactionRecord) (h : s ≠ s') :
    txnsGet (txnsPush t s tr) s' = txnsGet t s' := by
  induction t with
  | nil =>
    show txnsGet [(s, [tr])] s' = none
    rw [txnsGet, if_neg (by omega), txnsGet]
  | cons hd rest ih =>
    obtain ⟨k, l⟩ := hd
    rw [txnsPush]
    by_cases hk : k = s
    · subst hk
      rw [if_pos rfl, txnsGet, txnsGet, if_neg (by omega), if_neg (by omega)]
    · rw [if_neg hk, txnsGet, txnsGet]
      by_cases hk' : k = s'
      · rw [if_pos hk', if_pos hk']
      · rw [if_neg hk', if_neg hk']
        exact ih

theorem txnsGet_mem_keys (t : List (Nat × List TransactionRecord)) (s : Nat)
    (l : List TransactionRecord) (h : txnsGet t s = some l) :
    s ∈ t.map Prod.fst := by
  induction t with
  | nil => simp [txnsGet] at h
  | cons hd rest ih =>
    obtain ⟨k, l0⟩ := hd
    rw [txnsGet] at h
    by_cases hk : k = s
    · simp [hk]
    · rw [if_neg hk] at h
      simp only [List.map_cons, List.mem_cons]
      exact Or.inr (ih h)

theorem txnsGet_remove_same (t : List (Nat × List TransactionRecord))
    (s : Nat) (hnd : txnsNodup t) :
    txnsGet (txnsRemove t s) s = none := by
  induction t with
  | nil => rw [txnsRemove, txnsGet]
  | cons hd rest ih =>
    obtain ⟨k, l⟩ := hd
    rw [txnsRemove]
    unfold txnsNodup at hnd
    simp only [List.map_cons, List.nodup_cons] at hnd
    by_cases hk : k = s
    · subst hk
      rw [if_pos rfl]
      cases hg : txnsGet rest k with
      | none => rfl
      | some l' => exact absurd (txnsGet_mem_keys rest k l' hg) hnd.1
    · rw [if_neg hk, txnsGet, if_neg hk]
      exact ih hnd.2

theorem txnsGet_remove_ne (t : List (Nat × List TransactionRecord))
    (s s' : Nat) (h : s ≠ s') :
    txnsGet (txnsRemove t s) s' = txnsGet t s' := by
  induction t with
  | nil => rw [txnsRemove]
  | cons hd rest ih =>
    obtain ⟨k, l⟩ := hd
    rw [txnsRemove]
    by_cases hk : k = s
    · subst hk
      rw [if_pos rfl, txnsGet, if_neg (by omega)]
    · rw [if_neg hk, txnsGet, txnsGet]
      by_cases hk' : k = s'
      · rw [if_pos hk', if_pos hk']
      · rw [if_neg hk', if_neg hk']
        exact ih

theorem txnsPush_keys_subset (t : List (Nat × List TransactionRecord))
    (s : Nat) (tr : TransactionRecord) (k : Nat) (hk : k ≠ s) :
    k ∈ (txnsPush t s tr).map Prod.fst → k ∈ t.map Prod.fst := by
  induction t with
  | nil =>
    intro h
    rw [txnsPush] at h
    simp at h
    exact absurd h hk
  | cons hd rest ih =>
    obtain ⟨k2, l2⟩ := hd
    intro h
    rw [txnsPush] at h
    by_cases hk2 : k2 = s
    · rw [if_pos hk2] at h
      simpa using h
    · rw [if_neg hk2] at h
      simp only [List.map_cons, List.mem_cons] at h ⊢
      rcases h with h | h
      · exact Or.inl h
      · exact Or.inr (ih h)

theorem txnsRemove_keys_subset (t : List (Nat × List TransactionRecord))
    (s k : Nat) :
    k ∈ (txnsRemove t s).map Prod.fst → k ∈ t.map Prod.fst := by
  induction t with
  | nil => intro h; simp [txnsRemove] at h
  | cons hd rest ih =>
    obtain ⟨k2, l2⟩ := hd
    intro h
    rw [txnsRemove] at h
    by_cases hk2 : k2 = s
    · rw [if_pos hk2] at h
      simp only [List.map_cons, List.mem_cons]
      exact Or.inr h
    · rw [if_neg hk2] at h
      simp only [List.map_cons, List.mem_cons] at h ⊢
      rcases h with h | h
      · exact Or.inl h
      · exact Or.inr (ih h)

theorem txnsNodup_push (t : List (Nat × List TransactionRecord)) (s : Nat)
    (tr : TransactionRecord) (hnd : txnsNodup t) :
    txnsNodup (txnsPush t s tr) := by
  induction t with
  | nil => simp [txnsPush, txnsNodup]
  | cons hd rest ih =>
    obtain ⟨k, l⟩ := hd
    unfold txnsNodup at hnd ⊢
    simp only [List.map_cons, List.nodup_cons] at hnd
    rw [txnsPush]
    by_cases hk : k = s
    · rw [if_pos hk]
      simp only [List.map_cons, List.nodup_cons]
      exact hnd
    · rw [if_neg hk]
      simp only [List.map_cons, List.nodup_cons]
      exact ⟨fun hmem => hnd.1 (txnsPush_keys_subset rest s tr k hk hmem),
        ih hnd.2⟩

theorem txnsNodup_remove (t : List (Nat × List TransactionRecord)) (s : Nat)
    (hnd : txnsNodup t) : txnsNodup (txnsRemove t s) := by
  induction t with
  | nil => simpa [txnsRemove] using hnd
  | cons hd rest ih =>
    obtain ⟨k, l⟩ := hd
    unfold txnsNodup at hnd ⊢
    simp only [List.map_cons, List.nodup_cons] at hnd
    rw [txnsRemove]
    by_cases hk : k = s
    · rw [if_pos hk]
      exact hnd.2
    · rw [if_neg hk]
      simp only [List.map_cons, List.nodup_cons]
      exact ⟨fun hmem => hnd.1 (txnsRemove_keys_subset rest s k hmem),
        ih hnd.2⟩

/-! #### One-step equations for the stream-level spec functions -/

theorem pendingOf_append_one (recs : List (LogRecord × LogRecordPos))
    (rp : LogRecord × LogRecordPos) (s : Nat) :
    pendingOf (recs ++ [rp]) s =
      if seqOf rp.1 = s then
        (if rp.1.rec_type = .TxnFinish then []
         else pendingOf recs s ++ [⟨{ rp.1 with key := realKeyOf rp.1 }, rp.2⟩])
      else pendingOf recs s := by
  unfold pendingOf
  rw [List.foldl_append]
  rfl

theorem maxSeqOf_append_one (recs : List (LogRecord × LogRecordPos))
    (rp : LogRecord × LogRecordPos) :
    maxSeqOf (recs ++ [rp]) =
      if seqOf rp.1 > maxSeqOf recs then seqOf rp.1 else maxSeqOf recs := by
  unfold maxSeqOf
  rw [List.foldl_append]
  rfl

/-! #### Characterizing the pending buffer -/

/-- When a `TransactionRecord` is in the pending buffer for seq `s` after a
stream: it comes from a record stamped `s`, not a TxnFinish, with no
TxnFinish stamped `s` anywhere after it. -/
def PendingCond (recs : List (LogRecord × LogRecordPos)) (s : Nat)
    (tr : TransactionRecord) : Prop :=
  ∃ (i : Nat) (r : LogRecord) (p : LogRecordPos),
    recs[i]? = some (r, p) ∧ seqOf r = s ∧
    r.rec_type ≠ .TxnFinish ∧
    tr = ⟨{ r with key := realKeyOf r }, p⟩ ∧
    ∀ (j : Nat) (rj : LogRecord) (pj : LogRecordPos),
      i < j → recs[j]? = some (rj, pj) →
      ¬(rj.rec_type = .TxnFinish ∧ seqOf rj = s)

theorem PendingCond_append_one (recs : List (LogRecord × LogRecordPos))
    (rp : LogRecord × LogRecordPos) (s : Nat) (tr : TransactionRecord) :
    PendingCond (recs ++ [rp]) s tr ↔
      (if seqOf rp.1 = s then
        (if rp.1.rec_type = .TxnFinish then False
         else (PendingCond recs s tr ∨
           tr = ⟨{ rp.1 with key := realKeyOf rp.1 }, rp.2⟩))
       else PendingCond recs s tr) := by
  constructor
  · rintro ⟨i, r, p, hi, hs, hnf, htr, hall⟩
    by_cases hilt : i < recs.length
    · rw [List.getElem?_append_left hilt] at hi
      have hold : PendingCond recs s tr := by
        refine ⟨i, r, p, hi, hs, hnf, htr, ?_⟩
        intro j rj pj hij hj
        have hjlt : j < recs.length := (List.getElem?_eq_some.mp hj).1
        exact hall j rj pj hij
          (by rw [List.getElem?_append_left hjlt]; exact hj)
      by_cases hseq : seqOf rp.1 = s
      · rw [if_pos hseq]
        by_cases hfin : rp.1.rec_type = .TxnFinish
        · rw [if_pos hfin]
          exact hall recs.length rp.1 rp.2 (by omega)
            (List.getElem?_concat_length recs rp) ⟨hfin, hseq⟩
        · rw [if_neg hfin]
          exact Or.inl hold
      · rw [if_neg hseq]
        exact hold
    · by_cases hieq : i = recs.length
      · subst hieq
        rw [List.getElem?_concat_length] at hi
        injection hi with hi'
        have hr : r = rp.1 := by rw [hi']
        have hp : p = rp.2 := by rw [hi']
        subst hr
        subst hp
        rw [if_pos hs, if_neg hnf]
        exact Or.inr htr
      · rw [List.getElem?_eq_none (by simp; omega)] at hi
        exact absurd hi (by simp)
  · intro h
    by_cases hseq : seqOf rp.1 = s
    · rw [if_pos hseq] at h
      by_cases hfin : rp.1.rec_type = .TxnFinish
      · rw [if_pos hfin] at h
        exact absurd h (by simp)
      · rw [if_neg hfin] at h
        rcases h with hold | hnew
        · obtain ⟨i, r, p, hi, hs, hnf, htr, hall⟩ := hold
          have hilt : i < recs.length := (List.getElem?_eq_some.mp hi).1
          refine ⟨i, r, p, by rw [List.getElem?_append_left hilt]; exact hi,
            hs, hnf, htr, ?_⟩
          intro j rj pj hij hj
          by_cases hjlt : j < recs.length
          · rw [List.getElem?_append_left hjlt] at hj
            exact hall j rj pj hij hj
          · by_cases hjeq : j = recs.length
            · subst hjeq
              rw [List.getElem?_concat_length] at hj
              injection hj with hj'
              rintro ⟨hfin2, _⟩
              apply hfin
              rw [show rj = rp.1 from by rw [hj']] at hfin2
              exact hfin2
            · rw [List.getElem?_eq_none (by simp; omega)] at hj
              exact absurd hj (by simp)
        · refine ⟨recs.length, rp.1, rp.2,
            List.getElem?_concat_length recs rp, hseq, hfin, hnew, ?_⟩
          intro j rj pj hij hj
          rw [List.getElem?_eq_none (by simp; omega)] at hj
          exact absurd hj (by simp)
    · rw [if_neg hseq] at h
      obtain ⟨i, r, p, hi, hs, hnf, htr, hall⟩ := h
      have hilt : i < recs.length := (List.getElem?_eq_some.mp hi).1
      refine ⟨i, r, p, by rw [List.getElem?_append_left hilt]; exact hi,
        hs, hnf, htr, ?_⟩
      intro j rj pj hij hj
      by_cases hjlt : j < recs.length
      · rw [List.getElem?_append_left hjlt] at hj
        exact hall j rj pj hij hj
      · by_cases hjeq : j = recs.length
        · subst hjeq
          rw [List.getElem?_concat_length] at hj
          injection hj with hj'
          rintro ⟨_, hseq2⟩
          apply hseq
          rw [show rj = rp.1 from by rw [hj']] at hseq2
          exact hseq2
        · rw [List.getElem?_eq_none (by simp; omega)] at hj
          exact absurd hj (by simp)

theorem pendingOf_mem_iff (recs : List (LogRecord × LogRecordPos)) (s : Nat)
    (tr : TransactionRecord) :
    tr ∈ pendingOf recs s ↔ PendingCond recs s tr := by
  induction recs using List.reverseRecOn with
  | nil =>
    simp only [pendingOf, List.foldl_nil, List.not_mem_nil, false_iff]
    rintro ⟨i, r, p, hi, _⟩
    simp at hi
  | append_singleton recs rp ih =>
    rw [pendingOf_append_one, PendingCond_append_one]
    by_cases hseq : seqOf rp.1 = s
    · rw [if_pos hseq, if_pos hseq]
      by_cases hfin : rp.1.rec_type = .TxnFinish
      · rw [if_pos hfin, if_pos hfin]
        simp
      · rw [if_neg hfin, if_neg hfin]
        simp only [List.mem_append, List.mem_singleton]
        rw [ih]
    · rw [if_neg hseq, if_neg hseq]
      exact ih

/-! #### Characterizing the applied updates -/

/-- When a `(key, type, location)` triple is passed to `update_index` during
replay: it is the stripped form of a stream record that either is
non-transactional (seq 0) or belongs to a batch whose TxnFinish appears
later in the stream. -/
def AppliedCond (recs : List (LogRecord × LogRecordPos))
    (e : List Nat × LogRecordType × LogRecordPos) : Prop :=
  ∃ (i : Nat) (r : LogRecord) (p : LogRecordPos),
    recs[i]? = some (r, p) ∧ realKeyOf r = e.1 ∧ r.rec_type = e.2.1 ∧
    p = e.2.2 ∧
    (seqOf r = 0 ∨
      (seqOf r ≠ 0 ∧ r.rec_type ≠ .TxnFinish ∧
        ∃ (j : Nat) (rj : LogRecord) (pj : LogRecordPos),
          i < j ∧ recs[j]? = some (rj, pj) ∧
          rj.rec_type = .TxnFinish ∧ seqOf rj = seqOf r))

theorem AppliedCond_of_prefix (recs : List (LogRecord × LogRecordPos))
    (rp : LogRecord × LogRecordPos)
    (e : List Nat × LogRecordType × LogRecordPos)
    (h : AppliedCond recs e) : AppliedCond (recs ++ [rp]) e := by
  obtain ⟨i, r, p, hi, hk, ht, hp, hdisj⟩ := h
  have hilt : i < recs.length := (List.getElem?_eq_some.mp hi).1
  refine ⟨i, r, p, by rw [List.getElem?_append_left hilt]; exact hi,
    hk, ht, hp, ?_⟩
  rcases hdisj with h0 | ⟨hs, hnf, j, rj, pj, hij, hj, hfj, hsj⟩
  · exact Or.inl h0
  · have hjlt : j < recs.length := (List.getElem?_eq_some.mp hj).1
    exact Or.inr ⟨hs, hnf, j, rj, pj, hij,
      by rw [List.getElem?_append_left hjlt]; exact hj, hfj, hsj⟩

theorem AppliedCond_append_one (recs : List (LogRecord × LogRecordPos))
    (rp : LogRecord × LogRecordPos)
    (e : List Nat × LogRecordType × LogRecordPos) :
    AppliedCond (recs ++ [rp]) e ↔
      AppliedCond recs e ∨
      (seqOf rp.1 = 0 ∧ realKeyOf rp.1 = e.1 ∧ rp.1.rec_type = e.2.1 ∧
        rp.2 = e.2.2) ∨
      (seqOf rp.1 ≠ 0 ∧ rp.1.rec_type = .TxnFinish ∧
        ∃ tr, tr ∈ pendingOf recs (seqOf rp.1) ∧ tr.record.key = e.1 ∧
          tr.record.rec_type = e.2.1 ∧ tr.pos = e.2.2) := by
  constructor
  · rintro ⟨i, r, p, hi, hk, ht, hp, hdisj⟩
    by_cases hilt : i < recs.length
    · rw [List.getElem?_append_left hilt] at hi
      rcases hdisj with h0 | ⟨hs, hnf, j, rj, pj, hij, hj, hfj, hsj⟩
      · exact Or.inl ⟨i, r, p, hi, hk, ht, hp, Or.inl h0⟩
      · by_cases hjlt : j < recs.length
        · rw [List.getElem?_append_left hjlt] at hj
          exact Or.inl ⟨i, r, p, hi, hk, ht, hp,
            Or.inr ⟨hs, hnf, j, rj, pj, hij, hj, hfj, hsj⟩⟩
        · by_cases hjeq : j = recs.length
          · subst hjeq
            rw [List.getElem?_concat_length] at hj
            injection hj with hj'
            have hrj : rj = rp.1 := by rw [hj']
            subst hrj
            by_cases hmid : ∃ (m : Nat) (rm : LogRecord) (pm : LogRecordPos),
                i < m ∧ recs[m]? = some (rm, pm) ∧
                rm.rec_type = .TxnFinish ∧ seqOf rm = seqOf r
            · obtain ⟨m, rm, pm, him, hm, hfm, hsm⟩ := hmid
              exact Or.inl ⟨i, r, p, hi, hk, ht, hp,
                Or.inr ⟨hs, hnf, m, rm, pm, him, hm, hfm, hsm⟩⟩
            · refine Or.inr (Or.inr ⟨by omega, hfj,
                ⟨{ r with key := realKeyOf r }, p⟩, ?_, hk, ht, hp⟩)
              rw [pendingOf_mem_iff]
              refine ⟨i, r, p, hi, by omega, hnf, rfl, ?_⟩
              intro m rm pm him hm
              rintro ⟨hfm, hsm⟩
              exact hmid ⟨m, rm, pm, him, hm, hfm, by omega⟩
          · rw [List.getElem?_eq_none (by simp; omega)] at hj
            exact absurd hj (by simp)
    · by_cases hieq : i = recs.length
      · subst hieq
        rw [List.getElem?_concat_length] at hi
        injection hi with hi'
        have hr : r = rp.1 := by rw [hi']
        have hpp : p = rp.2 := by rw [hi']
        subst hr
        subst hpp
        rcases hdisj with h0 | ⟨hs, hnf, j, rj, pj, hij, hj, hfj, hsj⟩
        · exact Or.inr (Or.inl ⟨h0, hk, ht, hp⟩)
        · rw [List.getElem?_eq_none (by simp; omega)] at hj
          exact absurd hj (by simp)
      · rw [List.getElem?_eq_none (by simp; omega)] at hi
        exact absurd hi (by simp)
  · rintro (hold | ⟨h0, hk, ht, hp⟩ | ⟨hs, hfin, tr, htr, hk, ht, hp⟩)
    · exact AppliedCond_of_prefix recs rp e hold
    · exact ⟨recs.length, rp.1, rp.2, List.getElem?_concat_length recs rp,
        hk, ht, hp, Or.inl h0⟩
    · rw [pendingOf_mem_iff] at htr
      obtain ⟨i, r, p, hi, hsr, hnf, htre, hall⟩ := htr
      have hilt : i < recs.length := (List.getElem?_eq_some.mp hi).1
      have hkey : tr.record.key = realKeyOf r := by rw [htre]
      have htyp : tr.record.rec_type = r.rec_type := by rw [htre]
      have hpos : tr.pos = p := by rw [htre]
      refine ⟨i, r, p, by rw [List.getElem?_append_left hilt]; exact hi,
        by rw [← hkey]; exact hk, by rw [← htyp]; exact ht,
        by rw [← hpos]; exact hp, Or.inr ⟨by omega, hnf,
          recs.length, rp.1, rp.2, by omega,
          List.getElem?_concat_length recs rp, hfin, by omega⟩⟩

/-- A successfully parsed stamp determines `realKeyOf` and `seqOf`. -/
theorem parse_eq (r : LogRecord) (rk : List Nat × Nat)
    (h : parse_log_record_key r.key = some rk) :
    realKeyOf r = rk.1 ∧ seqOf r = rk.2 := by
  simp [realKeyOf, seqOf, h]

/-- Everything a successful replay of a stream computes, as functions of the
stream: the pending map holds exactly the unfinished batches, `maxSeq` is
the running maximum over all stamped records, the applied trail is exactly
the committed-or-non-transactional records, and the keydir is the fold of
the applied trail. -/
def ReplayChar (recs : List (LogRecord × LogRecordPos))
    (st : ReplayState) : Prop :=
  txnsNodup st.txns ∧
  (∀ s, s ≠ 0 → txnsGet st.txns s =
    if pendingOf recs s = [] then none else some (pendingOf recs s)) ∧
  st.maxSeq = maxSeqOf recs ∧
  (∀ e, e ∈ st.applied ↔ AppliedCond recs e) ∧
  st.index = st.applied.foldl
    (fun idx e => update_index idx e.1 e.2.1 e.2.2) []

theorem replayList_snoc_ok (recs : List (LogRecord × LogRecordPos))
    (rp : LogRecord × LogRecordPos) (st : ReplayState)
    (h : replayList initialReplayState (recs ++ [rp]) = .ok st) :
    ∃ st1, replayList initialReplayState recs = .ok st1 ∧
      replayStep st1 rp.1 rp.2 = .ok st := by
  rw [replayList_append] at h
  cases hl : replayList initialReplayState recs with
  | ok st1 =>
    rw [hl] at h
    simp only [] at h
    refine ⟨st1, rfl, ?_⟩
    rw [replayList] at h
    cases hstep : replayStep st1 rp.1 rp.2 with
    | ok st2 =>
      rw [hstep] at h
      simp only [replayList] at h
      injection h with h'
      rw [h']
    | err e =>
      rw [hstep] at h
      exact absurd h (by simp)
    | panic =>
      rw [hstep] at h
      exact absurd h (by simp)
  | err e => exact absurd hl (replayList_ne_err recs initialReplayState e)
  | panic =>
    rw [hl] at h
    exact absurd h (by simp)


theorem replayList_char (recs : List (LogRecord × LogRecordPos)) :
    ∀ st, replayList initialReplayState recs = .ok st → ReplayChar recs st := by
  induction recs using List.reverseRecOn with
  | nil =>
    intro st h
    rw [replayList] at h
    injection h with h'
    subst h'
    refine ⟨by simp [initialReplayState, txnsNodup], ?_, rfl, ?_, rfl⟩
    · intro s hs
      show txnsGet [] s = if pendingOf [] s = [] then none else _
      rw [show pendingOf [] s = [] from rfl, if_pos rfl, txnsGet]
    · intro e
      show e ∈ ([] : List _) ↔ AppliedCond [] e
      simp only [List.not_mem_nil, false_iff]
      rintro ⟨i, r, p, hi, _⟩
      simp at hi
  | append_singleton recs rp ih =>
    intro st h
    obtain ⟨st1, h1, hstep⟩ := replayList_snoc_ok recs rp st h
    obtain ⟨hnd, htx, hmax, happ, hidx⟩ := ih st1 h1
    unfold replayStep at hstep
    cases hparse : parse_log_record_key rp.1.key with
    | none =>
      rw [hparse] at hstep
      exact absurd hstep (by simp)
    | some rk =>
      rw [hparse] at hstep
      simp only [] at hstep
      obtain ⟨hrk1, hrk2⟩ := parse_eq rp.1 rk hparse
      by_cases h0 : rk.2 = NON_TRANSACTION_SEQ_NO
      · -- non-transactional record: applied directly
        rw [if_pos h0] at hstep
        injection hstep with hstep'
        subst hstep'
        have hseq0 : seqOf rp.1 = 0 := by rw [hrk2, h0]; rfl
        refine ⟨hnd, ?_, ?_, ?_, ?_⟩
        · intro s hs
          show txnsGet st1.txns s = if pendingOf (recs ++ [rp]) s = []
            then none else some (pendingOf (recs ++ [rp]) s)
          rw [pendingOf_append_one, if_neg (show ¬(seqOf rp.1 = s) by omega)]
          exact htx s hs
        · show (if rk.2 > st1.maxSeq then rk.2 else st1.maxSeq)
            = maxSeqOf (recs ++ [rp])
          rw [maxSeqOf_append_one, hseq0, hmax]
          have h0' : rk.2 = 0 := h0
          rw [h0']
        · intro e
          rw [AppliedCond_append_one]
          show e ∈ st1.applied ++ [(rk.1, rp.1.rec_type, rp.2)] ↔ _
          rw [List.mem_append, List.mem_singleton, happ e]
          constructor
          · rintro (hin | hin)
            · exact Or.inl hin
            · refine Or.inr (Or.inl ⟨hseq0, ?_, ?_, ?_⟩) <;> rw [hin]
              exact hrk1
          · rintro (hin | ⟨_, hk, ht, hp⟩ | ⟨hs, _⟩)
            · exact Or.inl hin
            · right
              calc e = (e.1, e.2.1, e.2.2) := rfl
                _ = (rk.1, rp.1.rec_type, rp.2) := by
                  rw [← hk, hrk1, ← ht, ← hp]
            · exact absurd hseq0 (by omega)
        · show update_index st1.index rk.1 rp.1.rec_type rp.2 =
            (st1.applied ++ [(rk.1, rp.1.rec_type, rp.2)]).foldl
              (fun idx e => update_index idx e.1 e.2.1 e.2.2) []
          rw [List.foldl_append, ← hidx]
          rfl
      · rw [if_neg h0] at hstep
        have hseqnz : seqOf rp.1 ≠ 0 := by
          rw [hrk2]
          exact h0
        by_cases hfin : rp.1.rec_type = .TxnFinish
        · -- TxnFinish: apply the buffered batch
          rw [if_pos hfin] at hstep
          cases hget : txnsGet st1.txns rk.2 with
          | none =>
            rw [hget] at hstep
            exact absurd hstep (by simp)
          | some records =>
            rw [hget] at hstep
            simp only [] at hstep
            injection hstep with hstep'
            subst hstep'
            have htx2 := htx rk.2 h0
            rw [hget] at htx2
            have hrecords : records = pendingOf recs rk.2 := by
              by_cases hemp : pendingOf recs rk.2 = []
              · rw [if_pos hemp] at htx2
                exact absurd htx2 (by simp)
              · rw [if_neg hemp] at htx2
                injection htx2
            refine ⟨txnsNodup_remove _ _ hnd, ?_, ?_, ?_, ?_⟩
            · intro s hs
              show txnsGet (txnsRemove st1.txns rk.2) s =
                if pendingOf (recs ++ [rp]) s = [] then none
                else some (pendingOf (recs ++ [rp]) s)
              by_cases hsr : s = rk.2
              · subst hsr
                rw [txnsGet_remove_same _ _ hnd, pendingOf_append_one,
                  if_pos (show seqOf rp.1 = rk.2 from hrk2), if_pos hfin,
                  if_pos rfl]
              · rw [txnsGet_remove_ne _ _ _ (show rk.2 ≠ s from by omega),
                  pendingOf_append_one,
                  if_neg (show ¬(seqOf rp.1 = s) from by rw [hrk2]; omega)]
                exact htx s hs
            · show (if rk.2 > st1.maxSeq then rk.2 else st1.maxSeq)
                = maxSeqOf (recs ++ [rp])
              rw [maxSeqOf_append_one, hrk2, hmax]
            · intro e
              rw [AppliedCond_append_one]
              show e ∈ st1.applied ++ records.map (fun tr =>
                (tr.record.key, tr.record.rec_type, tr.pos)) ↔ _
              rw [List.mem_append, happ e, List.mem_map]
              constructor
              · rintro (hin | ⟨tr, htr, htre⟩)
                · exact Or.inl hin
                · refine Or.inr (Or.inr ⟨hseqnz, hfin, tr, ?_, ?_, ?_, ?_⟩)
                  · rw [hrk2, ← hrecords]
                    exact htr
                  · rw [← htre]
                  · rw [← htre]
                  · rw [← htre]
              · rintro (hin | ⟨habs, _⟩ | ⟨_, _, tr, htr, hk, ht, hp⟩)
                · exact Or.inl hin
                · exact absurd habs hseqnz
                · refine Or.inr ⟨tr, ?_, ?_⟩
                  · rw [hrecords, ← hrk2]
                    exact htr
                  · calc (tr.record.key, tr.record.rec_type, tr.pos)
                        = (e.1, e.2.1, e.2.2) := by rw [hk, ht, hp]
                      _ = e := rfl
            · show records.foldl (fun idx tr =>
                update_index idx tr.record.key tr.record.rec_type tr.pos)
                  st1.index =
                (st1.applied ++ records.map (fun tr =>
                  (tr.record.key, tr.record.rec_type, tr.pos))).foldl
                  (fun idx e => update_index idx e.1 e.2.1 e.2.2) []
              rw [List.foldl_append, ← hidx, List.foldl_map]
        · -- a transactional record: buffered
          rw [if_neg hfin] at hstep
          injection hstep with hstep'
          subst hstep'
          refine ⟨txnsNodup_push _ _ _ hnd, ?_, ?_, ?_, ?_⟩
          · intro s hs
            show txnsGet (txnsPush st1.txns rk.2
                ⟨{ rp.1 with key := rk.1 }, rp.2⟩) s =
              if pendingOf (recs ++ [rp]) s = [] then none
              else some (pendingOf (recs ++ [rp]) s)
            by_cases hsr : s = rk.2
            · subst hsr
              rw [txnsGet_push_same, pendingOf_append_one,
                if_pos (show seqOf rp.1 = rk.2 from hrk2), if_neg hfin,
                htx rk.2 h0]
              have hentry : ({ rp.1 with key := realKeyOf rp.1 } : LogRecord)
                  = { rp.1 with key := rk.1 } := by rw [hrk1]
              rw [hentry]
              by_cases hemp : pendingOf recs rk.2 = []
              · rw [if_pos hemp, hemp,
                  if_neg (show ¬(([] : List TransactionRecord) ++
                    [(⟨{ rp.1 with key := rk.1 }, rp.2⟩ :
                      TransactionRecord)] = []) by simp)]
                rfl
              · rw [if_neg hemp,
                  if_neg (show ¬(pendingOf recs rk.2 ++
                    [(⟨{ rp.1 with key := rk.1 }, rp.2⟩ :
                      TransactionRecord)] = []) by simp)]
                rfl
            · rw [txnsGet_push_ne _ _ _ _ (show rk.2 ≠ s from by omega),
                pendingOf_append_one,
                if_neg (show ¬(seqOf rp.1 = s) from by rw [hrk2]; omega)]
              exact htx s hs
          · show (if rk.2 > st1.maxSeq then rk.2 else st1.maxSeq)
              = maxSeqOf (recs ++ [rp])
            rw [maxSeqOf_append_one, hrk2, hmax]
          · intro e
            rw [AppliedCond_append_one]
            show e ∈ st1.applied ↔ _
            rw [happ e]
            constructor
            · exact fun hin => Or.inl hin
            · rintro (hin | ⟨habs, _⟩ | ⟨_, habs, _⟩)
              · exact hin
              · exact absurd habs hseqnz
              · exact absurd habs hfin
          · exact hidx

/-! #### When does the replay panic? -/

/-- A log stream the replay processes without panicking: every stamp parses,
and every TxnFinish with positive seq is preceded — at some index after
every intervening TxnFinish of the same seq — by a non-TxnFinish record
stamped with that seq (i.e. the batch has at least one buffered record when
its TxnFinish arrives). -/
def GoodLog (recs : List (LogRecord × LogRecordPos)) : Prop :=
  (∀ (i : Nat) (r : LogRecord) (p : LogRecordPos),
    recs[i]? = some (r, p) → parse_log_record_key r.key ≠ none) ∧
  (∀ (j : Nat) (rj : LogRecord) (pj : LogRecordPos),
    recs[j]? = some (rj, pj) → rj.rec_type = .TxnFinish → seqOf rj ≠ 0 →
    ∃ (i : Nat) (ri : LogRecord) (pi : LogRecordPos), i < j ∧
      recs[i]? = some (ri, pi) ∧ seqOf ri = seqOf rj ∧
      ri.rec_type ≠ .TxnFinish ∧
      ∀ (m : Nat) (rm : LogRecord) (pm : LogRecordPos), i < m → m < j →
        recs[m]? = some (rm, pm) →
        ¬(rm.rec_type = .TxnFinish ∧ seqOf rm = seqOf rj))

/-- The nonemptiness of the pending buffer at index `j`, in stream terms. -/
theorem pendingOf_take_ne_nil (recs : List (LogRecord × LogRecordPos))
    (j : Nat) (s : Nat) :
    pendingOf (recs.take j) s ≠ [] ↔
      ∃ (i : Nat) (ri : LogRecord) (pi : LogRecordPos), i < j ∧
        recs[i]? = some (ri, pi) ∧ seqOf ri = s ∧
        ri.rec_type ≠ .TxnFinish ∧
        ∀ (m : Nat) (rm : LogRecord) (pm : LogRecordPos), i < m → m < j →
          recs[m]? = some (rm, pm) →
          ¬(rm.rec_type = .TxnFinish ∧ seqOf rm = s) := by
  constructor
  · intro hne
    obtain ⟨tr, htr⟩ := List.exists_mem_of_ne_nil _ hne
    rw [pendingOf_mem_iff] at htr
    obtain ⟨i, r, p, hi, hs, hnf, _, hall⟩ := htr
    rw [List.getElem?_take] at hi
    by_cases hij : i < j
    · rw [if_pos hij] at hi
      refine ⟨i, r, p, hij, hi, hs, hnf, ?_⟩
      intro m rm pm him hmj hm
      exact hall m rm pm him (by rw [List.getElem?_take, if_pos hmj]; exact hm)
    · rw [if_neg hij] at hi
      exact absurd hi (by simp)
  · rintro ⟨i, ri, pi, hij, hi, hs, hnf, hall⟩
    have hmem : (⟨{ ri with key := realKeyOf ri }, pi⟩ : TransactionRecord)
        ∈ pendingOf (recs.take j) s := by
      rw [pendingOf_mem_iff]
      refine ⟨i, ri, pi, by rw [List.getElem?_take, if_pos hij]; exact hi,
        hs, hnf, rfl, ?_⟩
      intro m rm pm him hm
      rw [List.getElem?_take] at hm
      by_cases hmj : m < j
      · rw [if_pos hmj] at hm
        exact hall m rm pm him hmj hm
      · rw [if_neg hmj] at hm
        exact absurd hm (by simp)
    intro hemp
    rw [hemp] at hmem
    exact absurd hmem (by simp)

theorem GoodLog_of_append (recs : List (LogRecord × LogRecordPos))
    (rp : LogRecord × LogRecordPos) (h : GoodLog (recs ++ [rp])) :
    GoodLog recs := by
  obtain ⟨hparse, hfin⟩ := h
  constructor
  · intro i r p hi
    have hilt : i < recs.length := (List.getElem?_eq_some.mp hi).1
    exact hparse i r p (by rw [List.getElem?_append_left hilt]; exact hi)
  · intro j rj pj hj hfinj hsj
    have hjlt : j < recs.length := (List.getElem?_eq_some.mp hj).1
    obtain ⟨i, ri, pi, hij, hi, hs, hnf, hall⟩ := hfin j rj pj
      (by rw [List.getElem?_append_left hjlt]; exact hj) hfinj hsj
    have hilt : i < recs.length := by omega
    rw [List.getElem?_append_left hilt] at hi
    refine ⟨i, ri, pi, hij, hi, hs, hnf, ?_⟩
    intro m rm pm him hmj hm
    have hmlt : m < recs.length := by omega
    exact hall m rm pm him hmj
      (by rw [List.getElem?_append_left hmlt]; exact hm)

theorem replay_ok_GoodLog (recs : List (LogRecord × LogRecordPos)) :
    ∀ st, replayList initialReplayState recs = .ok st → GoodLog recs := by
  induction recs using List.reverseRecOn with
  | nil =>
    intro st _
    constructor
    · intro i r p hi
      simp at hi
    · intro j rj pj hj
      simp at hj
  | append_singleton recs rp ih =>
    intro st h
    obtain ⟨st1, h1, hstep⟩ := replayList_snoc_ok recs rp st h
    have hgood := ih st1 h1
    obtain ⟨hnd, htx, _, _, _⟩ := replayList_char recs st1 h1
    constructor
    · intro i r p hi
      by_cases hilt : i < recs.length
      · rw [List.getElem?_append_left hilt] at hi
        exact hgood.1 i r p hi
      · by_cases hieq : i = recs.length
        · subst hieq
          rw [List.getElem?_concat_length] at hi
          injection hi with hi'
          have hr : r = rp.1 := by rw [hi']
          subst hr
          intro hnone
          unfold replayStep at hstep
          rw [hnone] at hstep
          exact absurd hstep (by simp)
        · rw [List.getElem?_eq_none (by simp; omega)] at hi
          exact absurd hi (by simp)
    · intro j rj pj hj hfinj hsj
      by_cases hjlt : j < recs.length
      · rw [List.getElem?_append_left hjlt] at hj
        obtain ⟨i, ri, pi, hij, hi, hs, hnf, hall⟩ :=
          hgood.2 j rj pj hj hfinj hsj
        have hilt : i < recs.length := by omega
        refine ⟨i, ri, pi, hij,
          by rw [List.getElem?_append_left hilt]; exact hi, hs, hnf, ?_⟩
        intro m rm pm him hmj hm
        have hmlt : m < recs.length := by omega
        rw [List.getElem?_append_left hmlt] at hm
        exact hall m rm pm him hmj hm
      · by_cases hjeq : j = recs.length
        · subst hjeq
          rw [List.getElem?_concat_length] at hj
          injection hj with hj'
          have hr : rj = rp.1 := by rw [hj']
          subst hr
          -- the step must have found a nonempty buffered batch
          unfold replayStep at hstep
          cases hparse : parse_log_record_key rp.1.key with
          | none =>
            rw [hparse] at hstep
            exact absurd hstep (by simp)
          | some rk =>
            rw [hparse] at hstep
            simp only [] at hstep
            obtain ⟨hrk1, hrk2⟩ := parse_eq rp.1 rk hparse
            rw [if_neg (show ¬(rk.2 = NON_TRANSACTION_SEQ_NO) from by
              show ¬(rk.2 = 0)
              omega), if_pos hfinj] at hstep
            cases hget : txnsGet st1.txns rk.2 with
            | none =>
              rw [hget] at hstep
              exact absurd hstep (by simp)
            | some records =>
              have htx2 := htx rk.2 (by omega)
              rw [hget] at htx2
              have hpend : pendingOf recs rk.2 ≠ [] := by
                intro hemp
                rw [if_pos hemp] at htx2
                exact absurd htx2 (by simp)
              rw [show recs = (recs ++ [rp]).take recs.length from by
                rw [List.take_append_of_le_length (by omega),
                  List.take_of_length_le (by omega)]] at hpend
              rw [pendingOf_take_ne_nil] at hpend
              obtain ⟨i, ri, pi, hij, hi, hs, hnf, hall⟩ := hpend
              exact ⟨i, ri, pi, hij, hi, by omega, hnf,
                fun m rm pm him hmj hm => by
                  rw [hrk2]
                  exact hall m rm pm him hmj hm⟩
        · rw [List.getElem?_eq_none (by simp; omega)] at hj
          exact absurd hj (by simp)

theorem GoodLog_replay_ok (recs : List (LogRecord × LogRecordPos)) :
    GoodLog recs → ∃ st, replayList initialReplayState recs = .ok st := by
  induction recs using List.reverseRecOn with
  | nil => intro _; exact ⟨initialReplayState, rfl⟩
  | append_singleton recs rp ih =>
    intro hgood
    obtain ⟨st1, h1⟩ := ih (GoodLog_of_append recs rp hgood)
    obtain ⟨hnd, htx, _, _, _⟩ := replayList_char recs st1 h1
    have hparse : parse_log_record_key rp.1.key ≠ none :=
      hgood.1 recs.length rp.1 rp.2 (by rw [List.getElem?_concat_length])
    cases hparse2 : parse_log_record_key rp.1.key with
    | none => exact absurd hparse2 hparse
    | some rk =>
      obtain ⟨hrk1, hrk2⟩ := parse_eq rp.1 rk hparse2
      have hlist : ∀ st2, replayStep st1 rp.1 rp.2 = .ok st2 →
          replayList initialReplayState (recs ++ [rp]) = .ok st2 := by
        intro st2 hstep
        rw [replayList_append, h1]
        simp only []
        rw [replayList, hstep]
        simp only [replayList]
      by_cases h0 : rk.2 = NON_TRANSACTION_SEQ_NO
      · have hstep : ∃ st2, replayStep st1 rp.1 rp.2 = .ok st2 := by
          unfold replayStep
          rw [hparse2]
          simp only []
          rw [if_pos h0]
          exact ⟨_, rfl⟩
        obtain ⟨st2, hstep⟩ := hstep
        exact ⟨st2, hlist st2 hstep⟩
      · by_cases hfin : rp.1.rec_type = .TxnFinish
        · have hpend : pendingOf recs rk.2 ≠ [] := by
            obtain ⟨i, ri, pi, hij, hi, hs, hnf, hall⟩ :=
              hgood.2 recs.length rp.1 rp.2
                (by rw [List.getElem?_concat_length]) hfin
                (by rw [hrk2]; exact h0)
            rw [show recs = (recs ++ [rp]).take recs.length from by
              rw [List.take_append_of_le_length (by omega),
                List.take_of_length_le (by omega)]]
            rw [pendingOf_take_ne_nil]
            have hilt : i < recs.length := by omega
            rw [List.getElem?_append_left hilt] at hi
            refine ⟨i, ri, pi, hij,
              by rw [List.getElem?_append_left hilt]; exact hi,
              by omega, hnf, ?_⟩
            intro m rm pm him hmj hm
            rw [← hrk2]
            exact hall m rm pm him hmj hm
          have hget : txnsGet st1.txns rk.2 =
              some (pendingOf recs rk.2) := by
            rw [htx rk.2 h0, if_neg hpend]
          have hstep : ∃ st2, replayStep st1 rp.1 rp.2 = .ok st2 := by
            unfold replayStep
            rw [hparse2]
            simp only []
            rw [if_neg h0, if_pos hfin, hget]
            exact ⟨_, rfl⟩
          obtain ⟨st2, hstep⟩ := hstep
          exact ⟨st2, hlist st2 hstep⟩
        · have hstep : ∃ st2, replayStep st1 rp.1 rp.2 = .ok st2 := by
            unfold replayStep
            rw [hparse2]
            simp only []
            rw [if_neg h0, if_neg hfin]
            exact ⟨_, rfl⟩
          obtain ⟨st2, hstep⟩ := hstep
          exact ⟨st2, hlist st2 hstep⟩

/-! #### Bridging the byte-level loops to the record stream -/

theorem loadFileLoop_decode (fuel : Nat) :
    ∀ (file : List Nat) (file_id offset : Nat) (st : ReplayState)
      (recs : List (LogRecord × LogRecordPos)) (fin : Nat),
    decodeFileLoop fuel file file_id offset = .ok (recs, fin) →
    loadFileLoop fuel file file_id offset st =
      match replayList st recs with
      | .ok st' => .ok (st', fin)
      | .err e => .err e
      | .panic => .panic := by
  induction fuel with
  | zero =>
    intro file file_id offset st recs fin h
    exact absurd h (by rw [decodeFileLoop]; simp)
  | succ fuel ih =>
    intro file file_id offset st recs fin h
    rw [decodeFileLoop] at h
    rw [loadFileLoop]
    cases hread : read_log_record file offset with
    | err e =>
      rw [hread] at h
      simp only [] at h
      simp only []
      by_cases heof : e = .ReadDataFileEOF
      · rw [if_pos heof] at h ⊢
        injection h with h'
        injection h' with h1 h2
        rw [← h1, ← h2]
        rw [replayList]
      · rw [if_neg heof] at h
        exact absurd h (by simp)
    | panic =>
      rw [hread] at h
      exact absurd h (by simp)
    | ok rs =>
      rw [hread] at h
      simp only [] at h
      simp only []
      cases hdec : decodeFileLoop fuel file file_id (offset + rs.2) with
      | ok rest =>
        rw [hdec] at h
        simp only [] at h
        injection h with h'
        injection h' with h1 h2
        rw [← h1, ← h2]
        rw [replayList]
        cases hstep : replayStep st rs.1 ⟨file_id, offset⟩ with
        | ok st' =>
          simp only []
          exact ih file file_id (offset + rs.2) st' rest.1 rest.2
            (by rw [hdec])
        | err e =>
          simp only []
        | panic =>
          simp only []
      | err e =>
        rw [hdec] at h
        exact absurd h (by simp)
      | panic =>
        rw [hdec] at h
        exact absurd h (by simp)

theorem loadFilesLoop_decode (files : List (Nat × List Nat)) :
    ∀ (st : ReplayState) (lastOff : Nat)
      (recs : List (LogRecord × LogRecordPos)),
    decodeFiles files = .ok recs →
    (∀ st', replayList st recs = .ok st' →
      ∃ off, loadFilesLoop files st lastOff = .ok (st', off)) ∧
    (replayList st recs = .panic → loadFilesLoop files st lastOff = .panic) := by
  induction files with
  | nil =>
    intro st lastOff recs h
    rw [decodeFiles] at h
    injection h with h'
    constructor
    · intro st' hrep
      rw [← h'] at hrep
      rw [replayList] at hrep
      injection hrep with hrep'
      rw [loadFilesLoop, hrep']
      exact ⟨lastOff, rfl⟩
    · intro hrep
      rw [← h', replayList] at hrep
      exact absurd hrep (by simp)
  | cons f rest ih =>
    obtain ⟨file_id, bytes⟩ := f
    intro st lastOff recs h
    rw [decodeFiles] at h
    cases hdec1 : decodeFileLoop (bytes.length + 1) bytes file_id 0 with
    | ok recs1 =>
      rw [hdec1] at h
      simp only [] at h
      cases hdec2 : decodeFiles rest with
      | ok recs2 =>
        rw [hdec2] at h
        simp only [] at h
        injection h with h'
        have hload1 := loadFileLoop_decode (bytes.length + 1) bytes file_id 0
          st recs1.1 recs1.2 (by rw [hdec1])
        constructor
        · intro st' hrep
          rw [← h', replayList_append] at hrep
          cases hrep1 : replayList st recs1.1 with
          | ok st1 =>
            rw [hrep1] at hrep
            simp only [] at hrep
            rw [loadFilesLoop]
            rw [hload1, hrep1]
            simp only []
            exact (ih st1 recs1.2 recs2 hdec2).1 st' hrep
          | err e => exact absurd hrep1 (replayList_ne_err _ _ _)
          | panic =>
            rw [hrep1] at hrep
            exact absurd hrep (by simp)
        · intro hrep
          rw [← h', replayList_append] at hrep
          cases hrep1 : replayList st recs1.1 with
          | ok st1 =>
            rw [hrep1] at hrep
            simp only [] at hrep
            rw [loadFilesLoop]
            rw [hload1, hrep1]
            simp only []
            exact (ih st1 recs1.2 recs2 hdec2).2 hrep
          | err e => exact absurd hrep1 (replayList_ne_err _ _ _)
          | panic =>
            rw [loadFilesLoop, hload1, hrep1]
      | err e =>
        rw [hdec2] at h
        exact absurd h (by simp)
      | panic =>
        rw [hdec2] at h
        exact absurd h (by simp)
    | err e =>
      rw [hdec1] at h
      exact absurd h (by simp)
    | panic =>
      rw [hdec1] at h
      exact absurd h (by simp)

/-- The keydir reconstruction of `open` is the stream replay of the decoded
log. -/
theorem load_index_replay (files : List (Nat × List Nat))
    (recs : List (LogRecord × LogRecordPos)) (st : ReplayState) (off : Nat)
    (hdec : decodeFiles files = .ok recs)
    (hload : load_index_from_data_files files = .ok (st, off)) :
    replayList initialReplayState recs = .ok st := by
  unfold load_index_from_data_files at hload
  by_cases hemp : files.isEmpty
  · rw [if_pos hemp] at hload
    injection hload with h'
    injection h' with h1 h2
    have hfiles : files = [] := List.isEmpty_iff.mp hemp
    subst hfiles
    rw [decodeFiles] at hdec
    injection hdec with h''
    rw [← h'', ← h1, replayList]
  · rw [if_neg hemp] at hload
    cases hrep : replayList initialReplayState recs with
    | ok st' =>
      obtain ⟨off', hload'⟩ :=
        (loadFilesLoop_decode files initialReplayState 0 recs hdec).1 st' hrep
      rw [hload'] at hload
      injection hload with h'
      injection h' with h1 h2
      rw [h1]
    | err e => exact absurd hrep (replayList_ne_err _ _ _)
    | panic =>
      have := (loadFilesLoop_decode files initialReplayState 0 recs hdec).2 hrep
      rw [this] at hload
      exact absurd hload (by simp)

/-! #### The replay claims -/

/-- A Normal record stamped with seq_no 5 (a batch record). -/
def txnRec5 : LogRecord := ⟨log_record_key_with_seq [97] 5, [98], .NORMAL⟩

/-- The TxnFinish record of batch 5. -/
def txnFin5 : LogRecord :=
  ⟨log_record_key_with_seq TXN_FIN_KEY 5, [], .TxnFinish⟩

/-- C1: batch atomicity under recovery.  For a log that `open` replays
successfully (hypotheses: the files decode to the stream `recs`, the replay
completes, and record locations are distinct, as they are for consecutive
records of real segment files), a record stamped with a positive seq_no is
applied to the keydir if and only if a TxnFinish with the same seq_no
appears later in the stream — so all records of a finished batch are
applied — and the keydir is exactly the fold of the applied records, so the
buffered records of unfinished batches leave it unchanged. -/
theorem C1_batch_atomicity (files : List (Nat × List Nat))
    (recs : List (LogRecord × LogRecordPos)) (st : ReplayState) (off : Nat)
    (hdec : decodeFiles files = .ok recs)
    (hload : load_index_from_data_files files = .ok (st, off))
    (hpos : (recs.map Prod.snd).Nodup) :
    (∀ (i : Nat) (r : LogRecord) (p : LogRecordPos),
      recs[i]? = some (r, p) → seqOf r ≠ 0 → r.rec_type ≠ .TxnFinish →
      ((realKeyOf r, r.rec_type, p) ∈ st.applied ↔
        ∃ (j : Nat) (rj : LogRecord) (pj : LogRecordPos), i < j ∧
          recs[j]? = some (rj, pj) ∧ rj.rec_type = .TxnFinish ∧
          seqOf rj = seqOf r)) ∧
    st.index = st.applied.foldl
      (fun idx e => update_index idx e.1 e.2.1 e.2.2) [] := by
  have hrep := load_index_replay files recs st off hdec hload
  obtain ⟨_, _, _, happ, hidx⟩ := replayList_char recs st hrep
  refine ⟨?_, hidx⟩
  intro i r p hi hs hnf
  rw [happ]
  constructor
  · rintro ⟨i', r', p', hi', hk', ht', hp', hdisj⟩
    have hpp : p' = p := hp'
    have hilt' : i' < recs.length := (List.getElem?_eq_some.mp hi').1
    have hii : i' = i := by
      have h1 : (recs.map Prod.snd)[i']? = (recs.map Prod.snd)[i]? := by
        rw [List.getElem?_map, List.getElem?_map, hi', hi]
        simp [hpp]
      exact List.getElem?_inj (by simpa using hilt') hpos h1
    subst hii
    rw [hi] at hi'
    injection hi' with hi''
    injection hi'' with hr1 hp1
    have hr' : r' = r := hr1.symm
    rcases hdisj with h0 | ⟨_, _, j, rj, pj, hij, hj, hfj, hsj⟩
    · rw [hr'] at h0
      exact absurd h0 hs
    · refine ⟨j, rj, pj, hij, hj, hfj, ?_⟩
      rw [hsj, hr']
  · rintro ⟨j, rj, pj, hij, hj, hfj, hsj⟩
    exact ⟨i, r, p, hi, rfl, rfl, rfl,
      Or.inr ⟨hs, hnf, j, rj, pj, hij, hj, hfj, hsj⟩⟩

set_option maxRecDepth 8000 in
/-- Witness for C1 on a one-file log holding a committed batch
(`txnRec5` then its TxnFinish): the batch record is applied. -/
theorem C1_batch_atomicity_witness :
    (realKeyOf txnRec5, txnRec5.rec_type, (⟨0, 0⟩ : LogRecordPos)) ∈
      (⟨[([97], ⟨0, 0⟩)], [], 5, [([97], .NORMAL, ⟨0, 0⟩)]⟩ :
        ReplayState).applied :=
  ((C1_batch_atomicity [(0, txnRec5.encode ++ txnFin5.encode)]
      [(txnRec5, ⟨0, 0⟩), (txnFin5, ⟨0, 10⟩)]
      ⟨[([97], ⟨0, 0⟩)], [], 5, [([97], .NORMAL, ⟨0, 0⟩)]⟩ 28
      (by decide) (by decide) (by decide)).1 0 txnRec5 ⟨0, 0⟩
      (by decide) (by decide) (by decide)).mpr
    ⟨1, txnFin5, ⟨0, 10⟩, by omega, by decide, by decide, by decide⟩

set_option maxRecDepth 8000 in
/-- Counterexample to C2 as stated: a log consisting of a single record of
an unfinished batch (seq_no 5, no TxnFinish anywhere in the log).  The claim
says the counter must be 1 (no committed batch); `open` computes 6, because
`load_index_from_data_files` tracks the maximum over all stamped records,
finished or not. -/
theorem C2_counterexample :
    decodeFiles [(0, txnRec5.encode)] = .ok [(txnRec5, ⟨0, 0⟩)] ∧
    txnRec5.rec_type ≠ .TxnFinish ∧ seqOf txnRec5 = 5 ∧
    openSeqNo [(0, txnRec5.encode)] = .ok 6 ∧ (6 : Nat) ≠ 1 :=
  ⟨by decide, by decide, by decide, by decide, by decide⟩

/-- C2 amended: after `open` completes, the sequence counter equals
`1 + max(seq_no over ALL records in the log)` — records of unfinished
batches included — or 1 when no record carries a positive seq_no. -/
theorem C2_open_seq_counter (files : List (Nat × List Nat))
    (recs : List (LogRecord × LogRecordPos)) (st : ReplayState) (off : Nat)
    (hdec : decodeFiles files = .ok recs)
    (hload : load_index_from_data_files files = .ok (st, off)) :
    openSeqNo files =
      .ok (if maxSeqOf recs > 0 then maxSeqOf recs + 1 else 1) := by
  have hrep := load_index_replay files recs st off hdec hload
  obtain ⟨_, _, hmax, _, _⟩ := replayList_char recs st hrep
  unfold openSeqNo
  rw [hload]
  simp only []
  rw [hmax]

set_option maxRecDepth 8000 in
/-- Witness for C2 (amended) on a one-file log with a committed batch. -/
theorem C2_open_seq_counter_witness :
    openSeqNo [(0, txnRec5.encode ++ txnFin5.encode)] =
      .ok (if maxSeqOf [(txnRec5, ⟨0, 0⟩), (txnFin5, ⟨0, 10⟩)] > 0
        then maxSeqOf [(txnRec5, ⟨0, 0⟩), (txnFin5, ⟨0, 10⟩)] + 1 else 1) :=
  C2_open_seq_counter [(0, txnRec5.encode ++ txnFin5.encode)]
    [(txnRec5, ⟨0, 0⟩), (txnFin5, ⟨0, 10⟩)]
    ⟨[([97], ⟨0, 0⟩)], [], 5, [([97], .NORMAL, ⟨0, 0⟩)]⟩ 28
    (by decide) (by decide)

/-- The C8 counterexample stream: one batch record, then two TxnFinish
records of the same batch. -/
def c8Recs : List (LogRecord × LogRecordPos) :=
  [(txnRec5, ⟨0, 0⟩), (txnFin5, ⟨0, 10⟩), (txnFin5, ⟨0, 20⟩)]

set_option maxRecDepth 8000 in
/-- Counterexample to C8's "exactly": in the stream `txnRec5, txnFin5,
txnFin5`, every TxnFinish is preceded by at least one non-TxnFinish record
stamped with its seq_no (the claim's precondition), yet the replay still
panics — the second TxnFinish finds the seq-5 entry already consumed and
removed by the first. -/
theorem C8_counterexample :
    (∀ j, j < 3 →
      (c8Recs.getD j (txnRec5, ⟨0, 0⟩)).1.rec_type = .TxnFinish →
      ∃ i, i < j ∧
        seqOf (c8Recs.getD i (txnRec5, ⟨0, 0⟩)).1 =
          seqOf (c8Recs.getD j (txnRec5, ⟨0, 0⟩)).1 ∧
        (c8Recs.getD i (txnRec5, ⟨0, 0⟩)).1.rec_type ≠ .TxnFinish) ∧
    replayList initialReplayState c8Recs = .panic :=
  ⟨by decide, by decide⟩

/-- C8 amended: the replay never returns an error from the transaction
bookkeeping (a missing entry is a panic, the `unwrap` of
`transaction_records.get`), and it completes without panicking exactly when
every stamp parses and every TxnFinish with positive seq_no is preceded by a
non-TxnFinish record with the same seq_no occurring after every earlier
TxnFinish of that seq_no. -/
theorem C8_txnfinish_lookup_panics (recs : List (LogRecord × LogRecordPos)) :
    ((∃ st, replayList initialReplayState recs = .ok st) ∨
      replayList initialReplayState recs = .panic) ∧
    ((∃ st, replayList initialReplayState recs = .ok st) ↔ GoodLog recs) := by
  constructor
  · cases hr : replayList initialReplayState recs with
    | ok st => exact Or.inl ⟨st, rfl⟩
    | err e => exact absurd hr (replayList_ne_err _ _ _)
    | panic => exact Or.inr rfl
  · constructor
    · rintro ⟨st, h⟩
      exact replay_ok_GoodLog recs st h
    · exact GoodLog_replay_ok recs

end Bitcask
